import Mathlib

/-!
Verification of the core of the `avian` collaborative editor: the piece-table
buffer (`src/editor/pt.rs`) and the revision history / operational-transform
engine with its coordinating `Editor` (`src/lib.rs`).

The Rust code is shallowly embedded:
* `String` buffers become `List Nat` of UTF-8 code units (`str::len` is the
  byte length, which `List.length` matches);
* `usize`/`u32` become `Nat`;
* functions that can panic (`unwrap`, slicing) return `Option`;
* the recursive `PieceTable::delete` is given the explicit fuel `len + 1`,
  which is sufficient because every recursive call strictly decreases `len`.
-/

namespace Avian

/-- A UTF-8 continuation byte, `0b10xxxxxx`.  Mirrors the test
`(b as i8) < -0x40` used by Rust's `str::is_char_boundary`. -/
def isCont (b : Nat) : Bool := decide (128 ≤ b) && decide (b < 192)

/-- Rust's `str::is_char_boundary` on a byte sequence: `0` is a boundary, the
end of the sequence is a boundary, and an interior index is a boundary iff the
byte there is not a continuation byte.  Indices past the end are not
boundaries. -/
def isCharBoundary (buf : List Nat) (i : Nat) : Bool :=
  if i = 0 then true
  else
    match buf[i]? with
    | none => decide (i = buf.length)
    | some b => !(isCont b)

/-- A byte string that does not begin with a UTF-8 continuation byte.  Every
Rust `&str` satisfies this, being valid UTF-8. -/
def headOk (s : List Nat) : Prop := s.head?.all (fun b => !isCont b) = true

/-- The byte slice `buffer[offset..offset+length]` described by one piece. -/
def seg (buf : List Nat) (p : Nat × Nat) : List Nat := (buf.drop p.1).take p.2

/-- `PieceTable` from `src/editor/pt.rs`: an append-only byte buffer and the
ordered list of `(offset, length)` pieces into it. -/
structure PieceTable where
  buffer : List Nat
  pieces : List (Nat × Nat)
deriving DecidableEq

/-- Total length of a piece list. -/
def sumLen (ps : List (Nat × Nat)) : Nat := (ps.map Prod.snd).sum

/-- Length of the first `k` pieces. -/
def sumTo (ps : List (Nat × Nat)) (k : Nat) : Nat := ((ps.take k).map Prod.snd).sum

namespace PieceTable

/-- `PieceTable::new`. -/
def new : PieceTable := ⟨[], [(0, 0)]⟩

/-- The `From<T: Into<String>>` impl: a table holding a whole initial string
as its single piece. -/
def fromBuffer (s : List Nat) : PieceTable := ⟨s, [(0, s.length)]⟩

/-- Loop body of `piece_index`: iterate over the pieces accumulating the
running total of lengths, returning the first index whose cumulative length
reaches `pos` (`sum >= pos`). -/
def piAux (pos : Nat) : List (Nat × Nat) → Nat → Nat → Option (Nat × Nat)
  | [], _, _ => none
  | p :: rest, i, acc =>
    if pos ≤ acc + p.2 then some (i, acc + p.2) else piAux pos rest (i + 1) (acc + p.2)

/-- Loop body of `piece_index_del`; identical to `piAux` except that the
comparison is strict (`sum > pos`). -/
def piAuxDel (pos : Nat) : List (Nat × Nat) → Nat → Nat → Option (Nat × Nat)
  | [], _, _ => none
  | p :: rest, i, acc =>
    if pos < acc + p.2 then some (i, acc + p.2) else piAuxDel pos rest (i + 1) (acc + p.2)

/-- `PieceTable::piece_index`: index of the piece containing offset `pos`
(a piece ending exactly at `pos` counts) plus the cumulative length through
that piece, or `none` when `pos` is out of range. -/
def piece_index (pt : PieceTable) (pos : Nat) : Option (Nat × Nat) :=
  piAux pos pt.pieces 0 0

/-- `PieceTable::piece_index_del`: like `piece_index` but a piece ending
exactly at `pos` does not count as containing it. -/
def piece_index_del (pt : PieceTable) (pos : Nat) : Option (Nat × Nat) :=
  piAuxDel pos pt.pieces 0 0

/-- `PieceTable::valid_index`: `pos` is in range and on a char boundary. -/
def valid_index (pt : PieceTable) (pos : Nat) : Bool :=
  match pt.piece_index pos with
  | none => false
  | some (piece, len) =>
    let pl := pt.pieces.getD piece (0, 0)
    let offset := pl.2 - (len - pos)
    isCharBoundary pt.buffer (pl.1 + offset)

/-- `PieceTable::empty_check`: restore the nonempty-pieces invariant. -/
def empty_check (pt : PieceTable) : PieceTable :=
  if pt.pieces = [] then ⟨pt.buffer, [(0, 0)]⟩ else pt

/-- `PieceTable::insert`.  Returns `none` where the Rust code would panic on
the `unwrap` of `piece_index`. -/
def insert (pt : PieceTable) (pos : Nat) (content : List Nat) : Option PieceTable :=
  let offset := pt.buffer.length
  let buf := pt.buffer ++ content
  match pt.piece_index pos with
  | none => none
  | some (piece, len) =>
    let pl := pt.pieces.getD piece (0, 0)
    if pos = len then
      if pl.1 + pl.2 = offset then
        some ⟨buf, pt.pieces.set piece (pl.1, pl.2 + content.length)⟩
      else
        some ⟨buf, pt.pieces.insertIdx (piece + 1) (offset, content.length)⟩
    else
      let overhead := len - pos
      let shrunk := pt.pieces.set piece (pl.1, pl.2 - overhead)
      let after_piece := (pl.1 + (pl.2 - overhead), overhead)
      some ⟨buf, (shrunk.insertIdx (piece + 1) (offset, content.length)).insertIdx
        (piece + 2) after_piece⟩

/-- Body of `PieceTable::delete`, with explicit fuel standing in for the
well-founded recursion (each recursive call strictly decreases `len`, so fuel
`len + 1` never runs out; the `0` case is unreachable from `delete`).
Returns `none` where the Rust code would panic. -/
def deleteAux : Nat → PieceTable → Nat → Nat → Option PieceTable
  | 0, _, _, _ => none
  | fuel + 1, pt, pos, len =>
    match pt.piece_index_del pos with
    | none => none
    | some (piece, e) =>
      let pl := pt.pieces.getD piece (0, 0)
      if pos = e - pl.2 then
        if pos + len = e then
          some (empty_check ⟨pt.buffer, pt.pieces.eraseIdx piece⟩)
        else if e < pos + len then
          match deleteAux fuel ⟨pt.buffer, pt.pieces.eraseIdx piece⟩ pos (len - pl.2) with
          | none => none
          | some pt' => some pt'.empty_check
        else
          some (empty_check ⟨pt.buffer, pt.pieces.set piece (pl.1 + len, pl.2 - len)⟩)
      else if pos + len = e then
        some ⟨pt.buffer, pt.pieces.set piece (pl.1, pl.2 - len)⟩
      else
        let overhead := e - pos
        let shrunk := pt.pieces.set piece (pl.1, pl.2 - overhead)
        if e < pos + len then
          match deleteAux fuel ⟨pt.buffer, shrunk⟩ pos (len - overhead) with
          | none => none
          | some pt' => some pt'.empty_check
        else
          let after_piece := (pl.1 + (pl.2 - overhead) + len, overhead - len)
          some ⟨pt.buffer, shrunk.insertIdx (piece + 1) after_piece⟩

/-- `PieceTable::delete`. -/
def delete (pt : PieceTable) (pos len : Nat) : Option PieceTable :=
  deleteAux (len + 1) pt pos len

/-- The `Display` impl: concatenate `buffer[offset..offset+length]` over the
pieces in order.  (Under the piece-table invariants every slice is in range
and on char boundaries, so the Rust formatting never panics.) -/
def render (pt : PieceTable) : List Nat := (pt.pieces.map (seg pt.buffer)).flatten

/-- Total logical length of the table. -/
def totalLen (pt : PieceTable) : Nat := sumLen pt.pieces

/-- Invariants I1 and I2 of the spec: the piece list is nonempty and every
piece's range lies within the buffer. -/
def Inv (pt : PieceTable) : Prop :=
  pt.pieces ≠ [] ∧ ∀ p ∈ pt.pieces, p.1 + p.2 ≤ pt.buffer.length

/-- Every piece starts on a char boundary of the buffer (half of invariant
I3). -/
def StartBound (pt : PieceTable) : Prop :=
  ∀ p ∈ pt.pieces, isCharBoundary pt.buffer p.1 = true

/-- The piece-table invariants I1–I3 of the spec, together with the fact —
automatic for a Rust `String` buffer, which is always valid UTF-8 — that the
buffer does not begin with a continuation byte. -/
def WF (pt : PieceTable) : Prop :=
  pt.pieces ≠ [] ∧
  (∀ p ∈ pt.pieces, p.1 + p.2 ≤ pt.buffer.length) ∧
  (∀ p ∈ pt.pieces, isCharBoundary pt.buffer p.1 = true) ∧
  (∀ p ∈ pt.pieces, isCharBoundary pt.buffer (p.1 + p.2) = true) ∧
  headOk pt.buffer

end PieceTable

/-- `EditAction` from `src/lib.rs`. -/
inductive EditAction where
  | Insert (content : List Nat)
  | Delete (len : Nat)
deriving DecidableEq

/-- `Edit` from `src/lib.rs`. -/
structure Edit where
  pos : Nat
  rev : Nat
  action : EditAction
deriving DecidableEq

/-- `History` from `src/lib.rs`: the backlog of `(old offset, new offset)`
pairs starting at revision `first_rev`. -/
structure History where
  first_rev : Nat
  edits : List (Nat × Nat)
deriving DecidableEq

namespace History

/-- `History::new`. -/
def new : History := ⟨0, []⟩

/-- `History::rev`: the current revision number. -/
def rev (h : History) : Nat := h.first_rev + h.edits.length

/-- The rebasing loop inside `History::transform`, over the entries newer
than the edit's base revision. -/
def transformLoop : List (Nat × Nat) → Nat → Except String Nat
  | [], pos => .ok pos
  | (o, n) :: rest, pos =>
    if o < pos then transformLoop rest (pos + n - o)
    else if pos < min o n then transformLoop rest pos
    else .error "not implemented"

/-- `History::transform`. -/
def transform (h : History) (e : Edit) : Except String Edit :=
  if e.rev < h.first_rev then .error "old revision"
  else if h.first_rev + h.edits.length < e.rev then .error "future revision"
  else
    let delta := e.rev - h.first_rev
    match transformLoop (h.edits.drop delta) e.pos with
    | .error msg => .error msg
    | .ok pos => .ok { e with pos := pos }

/-- `History::record`: append the positional effect of an applied edit and
stamp the edit with the new current revision. -/
def record (h : History) (e : Edit) : History × Edit :=
  let pair :=
    match e.action with
    | .Insert s => (e.pos, e.pos + s.length)
    | .Delete len => (e.pos + len, e.pos)
  let edits' := h.edits ++ [pair]
  (⟨h.first_rev, edits'⟩, { e with rev := h.first_rev + edits'.length })

/-- `History::acknowledge`: pop `rev - first_rev` entries from the front
(popping an empty queue is a no-op) and set `first_rev := rev`
unconditionally, exactly as the Rust loop does. -/
def acknowledge (h : History) (rev : Nat) : History :=
  ⟨rev, h.edits.drop (rev - h.first_rev)⟩

end History

/-- `Editor` from `src/lib.rs`: a piece table, a history and the per-client
acknowledgement map.  The `HashMap<Cid, u32>` is modelled as an association
list with at most one entry per key. -/
structure Editor (Cid : Type) where
  pt : PieceTable
  hist : History
  acks : List (Cid × Nat)
deriving DecidableEq

/-- `HashMap::insert`: overwrite the value at an existing key, otherwise add
the pair. -/
def insertAck [DecidableEq Cid] (m : List (Cid × Nat)) (id : Cid) (rev : Nat) :
    List (Cid × Nat) :=
  if m.any (fun p => p.1 = id) then
    m.map (fun p => if p.1 = id then (id, rev) else p)
  else m ++ [(id, rev)]

namespace Editor

variable {Cid : Type} [DecidableEq Cid]

/-- `Editor::new`. -/
def new : Editor Cid := ⟨PieceTable.new, History.new, []⟩

/-- `Editor::acknowledge`: record the client's watermark and trim the history
to the minimum acknowledgement over all clients.  The `getD 0` models the
`unwrap` of `values().min()`, which cannot fail because the map has just
received an entry. -/
def acknowledge (ed : Editor Cid) (id : Cid) (rev : Nat) : Editor Cid :=
  let acks := insertAck ed.acks id rev
  let minRev := ((acks.map Prod.snd).min?).getD 0
  ⟨ed.pt, ed.hist.acknowledge minRev, acks⟩

/-- `Editor::connect`. -/
def connect (ed : Editor Cid) (id : Cid) : Editor Cid × (Nat × List Nat) :=
  (⟨ed.pt, ed.hist, insertAck ed.acks id ed.hist.rev⟩, (ed.hist.rev, ed.pt.render))

/-- `Editor::disconnect`. -/
def disconnect (ed : Editor Cid) (id : Cid) : Editor Cid :=
  let acks := ed.acks.filter (fun p => p.1 ≠ id)
  match (acks.map Prod.snd).min? with
  | some minRev => ⟨ed.pt, ed.hist.acknowledge minRev, acks⟩
  | none => ⟨ed.pt, ed.hist.acknowledge ed.hist.rev, acks⟩

/-- `Editor::edit`: acknowledge, transform, validate, apply, record.
Returns `none` where the Rust code would panic (impossible under the checks
actually performed). -/
def edit (ed : Editor Cid) (id : Cid) (e : Edit) :
    Option (Editor Cid × Except String Edit) :=
  let ed1 := ed.acknowledge id e.rev
  match ed1.hist.transform e with
  | .error msg => some (ed1, .error msg)
  | .ok e1 =>
    match e1.action with
    | .Insert content =>
      if ed1.pt.valid_index e1.pos then
        match ed1.pt.insert e1.pos content with
        | some pt' =>
          let re := ed1.hist.record e1
          some (⟨pt', re.1, ed1.acks⟩, .ok re.2)
        | none => none
      else some (ed1, .error "invalid index")
    | .Delete len =>
      if 0 < len ∧ ed1.pt.valid_index e1.pos ∧ ed1.pt.valid_index (e1.pos + len) then
        match ed1.pt.delete e1.pos len with
        | some pt' =>
          let re := ed1.hist.record e1
          some (⟨pt', re.1, ed1.acks⟩, .ok re.2)
        | none => none
      else some (ed1, .error "invalid index")

/-- `Editor::buffer`. -/
def buffer (ed : Editor Cid) : List Nat := ed.pt.render

end Editor

/-- The editor states reachable through the public API from `Editor::new`. -/
inductive Reachable [DecidableEq Cid] : Editor Cid → Prop where
  | new : Reachable Editor.new
  | connect (ed : Editor Cid) (id : Cid) : Reachable ed → Reachable (ed.connect id).1
  | disconnect (ed : Editor Cid) (id : Cid) : Reachable ed → Reachable (ed.disconnect id)
  | edit (ed : Editor Cid) (id : Cid) (e : Edit) (ed' : Editor Cid)
      (r : Except String Edit) :
      Reachable ed → ed.edit id e = some (ed', r) → Reachable ed'

/-- Rendering a buffer/piece-list pair; `PieceTable.render` is this applied to
the table's own fields. -/
def renderP (buf : List Nat) (ps : List (Nat × Nat)) : List Nat :=
  (ps.map (seg buf)).flatten

/-- One `PieceTable` mutation, for stating properties of call sequences. -/
inductive Op where
  | ins (pos : Nat) (s : List Nat)
  | del (pos len : Nat)

/-- The precondition the documentation of `insert`/`delete` demands of a
call (for an insertion the content, being a Rust `&str`, is valid UTF-8; we
record the consequence `headOk`). -/
def OpOk (pt : PieceTable) : Op → Prop
  | .ins pos s => pt.valid_index pos = true ∧ headOk s
  | .del pos len => 0 < len ∧ pt.valid_index pos = true ∧ pt.valid_index (pos + len) = true

/-- Run one mutation. -/
def applyOp (pt : PieceTable) : Op → Option PieceTable
  | .ins pos s => pt.insert pos s
  | .del pos len => pt.delete pos len

/-- `Steps pt pt'`: `pt'` results from `pt` by a sequence of `insert`/`delete`
calls, each satisfying its precondition at the moment it is made. -/
inductive Steps : PieceTable → PieceTable → Prop where
  | refl (pt : PieceTable) : Steps pt pt
  | step (pt₁ pt₂ pt₃ : PieceTable) (op : Op) :
      Steps pt₁ pt₂ → OpOk pt₂ op → applyOp pt₂ op = some pt₃ → Steps pt₁ pt₃

/-! ### List helpers -/

theorem take_append_len {α : Type} (A B : List α) (k : Nat) :
    (A ++ B).take (A.length + k) = A ++ B.take k :=
  List.take_append k

theorem drop_append_len {α : Type} (A B : List α) (k : Nat) :
    (A ++ B).drop (A.length + k) = B.drop k :=
  List.drop_append k

theorem insertIdx_eq_take_cons_drop {α : Type} (a : α) :
    ∀ (n : Nat) (l : List α), n ≤ l.length →
      l.insertIdx n a = l.take n ++ a :: l.drop n := by
  intro n
  induction n with
  | zero => intro l _; simp [List.insertIdx_zero]
  | succ n ih =>
    intro l hl
    cases l with
    | nil => simp at hl
    | cons x xs =>
      simp only [List.insertIdx_succ_cons, List.take_succ_cons, List.drop_succ_cons,
        List.cons_append]
      rw [ih xs (by simpa using hl)]

/-! ### Cumulative piece lengths -/

theorem sumTo_zero (ps : List (Nat × Nat)) : sumTo ps 0 = 0 := rfl

theorem sumTo_cons_succ (p : Nat × Nat) (rest : List (Nat × Nat)) (k : Nat) :
    sumTo (p :: rest) (k + 1) = p.2 + sumTo rest k := by
  simp [sumTo]

theorem sumTo_succ_getD (ps : List (Nat × Nat)) (i : Nat) (h : i < ps.length) :
    sumTo ps (i + 1) = sumTo ps i + (ps.getD i (0, 0)).2 := by
  rw [sumTo, sumTo, List.take_succ, List.getElem?_eq_getElem h, List.map_append,
    List.sum_append]
  rw [List.getD_eq_getElem ps (0, 0) h]
  simp

theorem sumTo_mono (ps : List (Nat × Nat)) {k k' : Nat} (h : k ≤ k') :
    sumTo ps k ≤ sumTo ps k' := by
  induction ps generalizing k k' with
  | nil => simp [sumTo]
  | cons p rest ih =>
    cases k with
    | zero => simp [sumTo_zero]
    | succ k =>
      cases k' with
      | zero => omega
      | succ k' =>
        rw [sumTo_cons_succ, sumTo_cons_succ]
        exact Nat.add_le_add_left (ih (Nat.le_of_succ_le_succ h)) _

theorem sumTo_length (ps : List (Nat × Nat)) : sumTo ps ps.length = sumLen ps := by
  simp [sumTo, sumLen]

theorem sumTo_of_le (ps : List (Nat × Nat)) {k : Nat} (h : ps.length ≤ k) :
    sumTo ps k = sumLen ps := by
  simp [sumTo, sumLen, List.take_of_length_le h]

theorem sumTo_le_sumLen (ps : List (Nat × Nat)) (k : Nat) : sumTo ps k ≤ sumLen ps := by
  rcases Nat.le_total k ps.length with h | h
  · rw [← sumTo_length]; exact sumTo_mono ps h
  · rw [sumTo_of_le ps h]

theorem sumTo_append_le (A B : List (Nat × Nat)) {k : Nat} (h : k ≤ A.length) :
    sumTo (A ++ B) k = sumTo A k := by
  rw [sumTo, sumTo, List.take_append_of_le_length h]

theorem sumTo_append_ge (A B : List (Nat × Nat)) (k : Nat) :
    sumTo (A ++ B) (A.length + k) = sumLen A + sumTo B k := by
  rw [sumTo, take_append_len, sumLen, sumTo]
  simp

theorem sumLen_append (A B : List (Nat × Nat)) :
    sumLen (A ++ B) = sumLen A + sumLen B := by
  simp [sumLen]

/-! ### `piece_index` characterisations -/

theorem piAux_eq_some_iff (pos : Nat) (ps : List (Nat × Nat)) (i s j e : Nat) :
    PieceTable.piAux pos ps i s = some (j, e) ↔
      ∃ k, k < ps.length ∧ j = i + k ∧ e = s + sumTo ps (k + 1) ∧ pos ≤ e ∧
        ∀ m, m < k → s + sumTo ps (m + 1) < pos := by
  induction ps generalizing i s with
  | nil =>
    simp [PieceTable.piAux]
  | cons p rest ih =>
    rw [PieceTable.piAux]
    by_cases hle : pos ≤ s + p.2
    · rw [if_pos hle]
      constructor
      · intro h
        injection h with h'
        injection h' with h1 h2
        exact ⟨0, by simp, h1.symm, by rw [← h2, sumTo_cons_succ, sumTo_zero]; omega,
          by omega, by omega⟩
      · rintro ⟨k, hk, rfl, he, hpe, hm⟩
        cases k with
        | zero =>
          rw [sumTo_cons_succ, sumTo_zero] at he
          simp only [Nat.add_zero] at *
          rw [he]
        | succ k =>
          exact absurd ((by rw [sumTo_cons_succ, sumTo_zero]; omega :
            s + sumTo (p :: rest) 1 = s + p.2) ▸ hm 0 (Nat.succ_pos k)) (by omega)
    · rw [if_neg hle]
      rw [ih (i + 1) (s + p.2)]
      constructor
      · rintro ⟨k, hk, rfl, he, hpe, hm⟩
        refine ⟨k + 1, by simpa using hk, by omega, ?_, hpe, ?_⟩
        · rw [sumTo_cons_succ]; omega
        · intro m hm'
          cases m with
          | zero => rw [sumTo_cons_succ, sumTo_zero]; omega
          | succ m => rw [sumTo_cons_succ]; have := hm m (by omega); omega
      · rintro ⟨k, hk, rfl, he, hpe, hm⟩
        cases k with
        | zero => rw [sumTo_cons_succ, sumTo_zero] at he; omega
        | succ k =>
          refine ⟨k, by simpa using hk, by omega, ?_, hpe, ?_⟩
          · rw [sumTo_cons_succ] at he; omega
          · intro m hm'
            have := hm (m + 1) (by omega)
            rw [sumTo_cons_succ] at this; omega

theorem piAux_eq_none_iff (pos : Nat) (ps : List (Nat × Nat)) (i s : Nat) :
    PieceTable.piAux pos ps i s = none ↔
      ∀ k, k < ps.length → s + sumTo ps (k + 1) < pos := by
  induction ps generalizing i s with
  | nil => simp [PieceTable.piAux]
  | cons p rest ih =>
    rw [PieceTable.piAux]
    by_cases hle : pos ≤ s + p.2
    · rw [if_pos hle]
      refine iff_of_false (by simp) (fun h => absurd ((by
        rw [sumTo_cons_succ, sumTo_zero]; omega :
        s + sumTo (p :: rest) 1 = s + p.2) ▸ h 0 (by simp)) (by omega))
    · rw [if_neg hle, ih]
      constructor
      · intro h k hk
        cases k with
        | zero => rw [sumTo_cons_succ, sumTo_zero]; omega
        | succ k => rw [sumTo_cons_succ]; have := h k (by simpa using hk); omega
      · intro h k hk
        have := h (k + 1) (by simpa using hk)
        rw [sumTo_cons_succ] at this; omega

theorem piAuxDel_eq_some_iff (pos : Nat) (ps : List (Nat × Nat)) (i s j e : Nat) :
    PieceTable.piAuxDel pos ps i s = some (j, e) ↔
      ∃ k, k < ps.length ∧ j = i + k ∧ e = s + sumTo ps (k + 1) ∧ pos < e ∧
        ∀ m, m < k → s + sumTo ps (m + 1) ≤ pos := by
  induction ps generalizing i s with
  | nil =>
    simp [PieceTable.piAuxDel]
  | cons p rest ih =>
    rw [PieceTable.piAuxDel]
    by_cases hle : pos < s + p.2
    · rw [if_pos hle]
      constructor
      · intro h
        injection h with h'
        injection h' with h1 h2
        exact ⟨0, by simp, h1.symm, by rw [← h2, sumTo_cons_succ, sumTo_zero]; omega,
          by omega, by omega⟩
      · rintro ⟨k, hk, rfl, he, hpe, hm⟩
        cases k with
        | zero =>
          rw [sumTo_cons_succ, sumTo_zero] at he
          simp only [Nat.add_zero] at *
          rw [he]
        | succ k =>
          exact absurd ((by rw [sumTo_cons_succ, sumTo_zero]; omega :
            s + sumTo (p :: rest) 1 = s + p.2) ▸ hm 0 (Nat.succ_pos k)) (by omega)
    · rw [if_neg hle]
      rw [ih (i + 1) (s + p.2)]
      constructor
      · rintro ⟨k, hk, rfl, he, hpe, hm⟩
        refine ⟨k + 1, by simpa using hk, by omega, ?_, hpe, ?_⟩
        · rw [sumTo_cons_succ]; omega
        · intro m hm'
          cases m with
          | zero => rw [sumTo_cons_succ, sumTo_zero]; omega
          | succ m => rw [sumTo_cons_succ]; have := hm m (by omega); omega
      · rintro ⟨k, hk, rfl, he, hpe, hm⟩
        cases k with
        | zero => rw [sumTo_cons_succ, sumTo_zero] at he; omega
        | succ k =>
          refine ⟨k, by simpa using hk, by omega, ?_, hpe, ?_⟩
          · rw [sumTo_cons_succ] at he; omega
          · intro m hm'
            have := hm (m + 1) (by omega)
            rw [sumTo_cons_succ] at this; omega

theorem piAuxDel_eq_none_iff (pos : Nat) (ps : List (Nat × Nat)) (i s : Nat) :
    PieceTable.piAuxDel pos ps i s = none ↔
      ∀ k, k < ps.length → s + sumTo ps (k + 1) ≤ pos := by
  induction ps generalizing i s with
  | nil => simp [PieceTable.piAuxDel]
  | cons p rest ih =>
    rw [PieceTable.piAuxDel]
    by_cases hle : pos < s + p.2
    · rw [if_pos hle]
      refine iff_of_false (by simp) (fun h => absurd ((by
        rw [sumTo_cons_succ, sumTo_zero]; omega :
        s + sumTo (p :: rest) 1 = s + p.2) ▸ h 0 (by simp)) (by omega))
    · rw [if_neg hle, ih]
      constructor
      · intro h k hk
        cases k with
        | zero => rw [sumTo_cons_succ, sumTo_zero]; omega
        | succ k => rw [sumTo_cons_succ]; have := h k (by simpa using hk); omega
      · intro h k hk
        have := h (k + 1) (by simpa using hk)
        rw [sumTo_cons_succ] at this; omega

theorem piece_index_eq_some_iff (pt : PieceTable) (pos j e : Nat) :
    pt.piece_index pos = some (j, e) ↔
      j < pt.pieces.length ∧ e = sumTo pt.pieces (j + 1) ∧ pos ≤ e ∧
        ∀ m, m < j → sumTo pt.pieces (m + 1) < pos := by
  rw [PieceTable.piece_index, piAux_eq_some_iff]
  constructor
  · rintro ⟨k, hk, rfl, he, hpe, hm⟩
    exact ⟨by simpa using hk, by simpa using he, hpe, fun m hm' => by
      simpa using hm m (by simpa using hm')⟩
  · rintro ⟨hk, he, hpe, hm⟩
    exact ⟨j, hk, by omega, by simpa using he, hpe, fun m hm' => by
      simpa using hm m hm'⟩

theorem piece_index_del_eq_some_iff (pt : PieceTable) (pos j e : Nat) :
    pt.piece_index_del pos = some (j, e) ↔
      j < pt.pieces.length ∧ e = sumTo pt.pieces (j + 1) ∧ pos < e ∧
        ∀ m, m < j → sumTo pt.pieces (m + 1) ≤ pos := by
  rw [PieceTable.piece_index_del, piAuxDel_eq_some_iff]
  constructor
  · rintro ⟨k, hk, rfl, he, hpe, hm⟩
    exact ⟨by simpa using hk, by simpa using he, hpe, fun m hm' => by
      simpa using hm m (by simpa using hm')⟩
  · rintro ⟨hk, he, hpe, hm⟩
    exact ⟨j, hk, by omega, by simpa using he, hpe, fun m hm' => by
      simpa using hm m hm'⟩

theorem piece_index_eq_none_iff (pt : PieceTable) (pos : Nat) :
    pt.piece_index pos = none ↔
      ∀ k, k < pt.pieces.length → sumTo pt.pieces (k + 1) < pos := by
  rw [PieceTable.piece_index, piAux_eq_none_iff]
  constructor
  · intro h k hk; simpa using h k hk
  · intro h k hk; simpa using h k hk

theorem piece_index_del_eq_none_iff (pt : PieceTable) (pos : Nat) :
    pt.piece_index_del pos = none ↔
      ∀ k, k < pt.pieces.length → sumTo pt.pieces (k + 1) ≤ pos := by
  rw [PieceTable.piece_index_del, piAuxDel_eq_none_iff]
  constructor
  · intro h k hk; simpa using h k hk
  · intro h k hk; simpa using h k hk

theorem piece_index_facts (pt : PieceTable) (pos j e : Nat)
    (h : pt.piece_index pos = some (j, e)) :
    j < pt.pieces.length ∧
      e = sumTo pt.pieces j + (pt.pieces.getD j (0, 0)).2 ∧
      sumTo pt.pieces j ≤ pos ∧ pos ≤ e ∧
      (0 < j → sumTo pt.pieces j < pos) := by
  rw [piece_index_eq_some_iff] at h
  obtain ⟨hj, he, hpe, hm⟩ := h
  have hsucc := sumTo_succ_getD pt.pieces j hj
  refine ⟨hj, by omega, ?_, hpe, ?_⟩
  · cases j with
    | zero => simp [sumTo_zero]
    | succ j => have := hm j (by omega); omega
  · intro hj0
    have := hm (j - 1) (by omega)
    have hj1 : j - 1 + 1 = j := by omega
    rw [hj1] at this
    omega

theorem piece_index_del_facts (pt : PieceTable) (pos j e : Nat)
    (h : pt.piece_index_del pos = some (j, e)) :
    j < pt.pieces.length ∧
      e = sumTo pt.pieces j + (pt.pieces.getD j (0, 0)).2 ∧
      sumTo pt.pieces j ≤ pos ∧ pos < e := by
  rw [piece_index_del_eq_some_iff] at h
  obtain ⟨hj, he, hpe, hm⟩ := h
  have hsucc := sumTo_succ_getD pt.pieces j hj
  refine ⟨hj, by omega, ?_, hpe⟩
  cases j with
  | zero => simp [sumTo_zero]
  | succ j =>
    have := hm j (by omega)
    omega

theorem piece_index_isSome (pt : PieceTable) (pos : Nat)
    (h1 : pt.pieces ≠ []) (h2 : pos ≤ sumLen pt.pieces) :
    ∃ j e, pt.piece_index pos = some (j, e) := by
  match hpi : pt.piece_index pos with
  | some (j, e) => exact ⟨j, e, rfl⟩
  | none =>
    rw [piece_index_eq_none_iff] at hpi
    have hlen : 0 < pt.pieces.length := List.length_pos.mpr h1
    have := hpi (pt.pieces.length - 1) (by omega)
    have h3 : pt.pieces.length - 1 + 1 = pt.pieces.length := by omega
    rw [h3, sumTo_length] at this
    omega

theorem piece_index_del_isSome (pt : PieceTable) (pos : Nat)
    (h2 : pos < sumLen pt.pieces) :
    ∃ j e, pt.piece_index_del pos = some (j, e) := by
  match hpi : pt.piece_index_del pos with
  | some (j, e) => exact ⟨j, e, rfl⟩
  | none =>
    rw [piece_index_del_eq_none_iff] at hpi
    have h1 : pt.pieces ≠ [] := by
      intro h
      rw [h] at h2
      simp [sumLen] at h2
    have hlen : 0 < pt.pieces.length := List.length_pos.mpr h1
    have := hpi (pt.pieces.length - 1) (by omega)
    have h3 : pt.pieces.length - 1 + 1 = pt.pieces.length := by omega
    rw [h3, sumTo_length] at this
    omega

theorem le_totalLen_of_valid (pt : PieceTable) (pos : Nat)
    (h : pt.valid_index pos = true) : pos ≤ pt.totalLen := by
  rw [PieceTable.valid_index] at h
  match hpi : pt.piece_index pos with
  | none => rw [hpi] at h; simp at h
  | some (j, e) =>
    obtain ⟨hj, he, hpre, hpe, _⟩ := piece_index_facts pt pos j e hpi
    have h1 := sumTo_succ_getD pt.pieces j hj
    have h2 := sumTo_le_sumLen pt.pieces (j + 1)
    rw [PieceTable.totalLen]
    omega

/-! ### Segments and rendering -/

theorem seg_zero_len (buf : List Nat) (o : Nat) : seg buf (o, 0) = [] := by
  simp [seg]

theorem seg_length (buf : List Nat) (p : Nat × Nat) (h : p.1 + p.2 ≤ buf.length) :
    (seg buf p).length = p.2 := by
  simp [seg]
  omega

theorem seg_buffer_append (buf s : List Nat) (p : Nat × Nat)
    (h : p.1 + p.2 ≤ buf.length) : seg (buf ++ s) p = seg buf p := by
  rw [seg, seg, List.drop_append_of_le_length (by omega),
    List.take_append_of_le_length (by simp; omega)]

theorem seg_split (buf : List Nat) (o a b : Nat) :
    seg buf (o, a + b) = seg buf (o, a) ++ seg buf (o + a, b) := by
  rw [seg, seg, seg]
  simp only [List.take_add]
  rw [List.drop_drop]

theorem seg_last (buf s : List Nat) : seg (buf ++ s) (buf.length, s.length) = s := by
  rw [seg]
  simp

theorem seg_getElem (buf : List Nat) (o l k : Nat) (hk : k < l) :
    (seg buf (o, l))[k]? = buf[o + k]? := by
  rw [seg, List.getElem?_take]
  simp only [hk, if_true]
  rw [List.getElem?_drop]

theorem renderP_nil (buf : List Nat) : renderP buf [] = [] := rfl

theorem renderP_cons (buf : List Nat) (p : Nat × Nat) (ps : List (Nat × Nat)) :
    renderP buf (p :: ps) = seg buf p ++ renderP buf ps := by
  simp [renderP]

theorem renderP_append (buf : List Nat) (A B : List (Nat × Nat)) :
    renderP buf (A ++ B) = renderP buf A ++ renderP buf B := by
  simp [renderP]

theorem renderP_length (buf : List Nat) (ps : List (Nat × Nat))
    (h : ∀ p ∈ ps, p.1 + p.2 ≤ buf.length) :
    (renderP buf ps).length = sumLen ps := by
  induction ps with
  | nil => rfl
  | cons p rest ih =>
    rw [renderP_cons, List.length_append, seg_length buf p (h p (by simp)),
      ih (fun q hq => h q (by simp [hq]))]
    simp [sumLen]

theorem renderP_buffer_append (buf s : List Nat) (ps : List (Nat × Nat))
    (h : ∀ p ∈ ps, p.1 + p.2 ≤ buf.length) :
    renderP (buf ++ s) ps = renderP buf ps := by
  induction ps with
  | nil => rfl
  | cons p rest ih =>
    rw [renderP_cons, renderP_cons, seg_buffer_append buf s p (h p (by simp)),
      ih (fun q hq => h q (by simp [hq]))]

theorem render_eq_renderP (pt : PieceTable) : pt.render = renderP pt.buffer pt.pieces := rfl

theorem render_length (pt : PieceTable) (h : ∀ p ∈ pt.pieces, p.1 + p.2 ≤ pt.buffer.length) :
    pt.render.length = pt.totalLen :=
  renderP_length pt.buffer pt.pieces h

theorem renderP_take_length (buf : List Nat) (ps : List (Nat × Nat)) (i : Nat)
    (h : ∀ p ∈ ps, p.1 + p.2 ≤ buf.length) :
    (renderP buf (ps.take i)).length = sumTo ps i :=
  renderP_length buf (ps.take i) (fun p hp => h p (List.mem_of_mem_take hp))

theorem pieces_decomp (ps : List (Nat × Nat)) (i : Nat) (h : i < ps.length) :
    ps = ps.take i ++ ps.getD i (0, 0) :: ps.drop (i + 1) := by
  conv_lhs => rw [← List.take_append_drop i ps]
  rw [List.drop_eq_getElem_cons h, List.getD_eq_getElem ps (0, 0) h]

theorem set_decomp (ps : List (Nat × Nat)) (i : Nat) (p : Nat × Nat) (h : i < ps.length) :
    ps.set i p = ps.take i ++ p :: ps.drop (i + 1) := by
  rw [List.set_eq_take_append_cons_drop, if_pos h]

theorem empty_check_render (pt : PieceTable) :
    pt.empty_check.render = pt.render := by
  rw [PieceTable.empty_check]
  by_cases h : pt.pieces = []
  · rw [if_pos h, render_eq_renderP, render_eq_renderP, h]
    simp [renderP, seg]
  · rw [if_neg h]

theorem empty_check_buffer (pt : PieceTable) :
    pt.empty_check.buffer = pt.buffer := by
  rw [PieceTable.empty_check]
  by_cases h : pt.pieces = []
  · rw [if_pos h]
  · rw [if_neg h]

theorem empty_check_inv (pt : PieceTable)
    (h : ∀ p ∈ pt.pieces, p.1 + p.2 ≤ pt.buffer.length) : pt.empty_check.Inv := by
  rw [PieceTable.empty_check]
  by_cases he : pt.pieces = []
  · rw [if_pos he]
    exact ⟨by simp, by simp⟩
  · rw [if_neg he]
    exact ⟨he, h⟩

/-! ### Specification of `insert` -/

theorem seg_take (buf : List Nat) (o l k : Nat) (h : k ≤ l) :
    (seg buf (o, l)).take k = seg buf (o, k) := by
  rw [seg, seg, List.take_take, Nat.min_eq_left h]

theorem seg_drop (buf : List Nat) (o l k : Nat) :
    (seg buf (o, l)).drop k = seg buf (o + k, l - k) := by
  rw [seg, seg, List.drop_take, List.drop_drop]

theorem take_len_succ_append {α : Type} (A : List α) (b : α) (C : List α) :
    (A ++ b :: C).take (A.length + 1) = A ++ [b] := by
  rw [List.take_append]
  simp

theorem drop_len_succ_append {α : Type} (A : List α) (b : α) (C : List α) :
    (A ++ b :: C).drop (A.length + 1) = C := by
  rw [List.drop_append]
  simp

theorem render_decomp (pt : PieceTable) (j : Nat) (hj : j < pt.pieces.length) :
    pt.render = renderP pt.buffer (pt.pieces.take j) ++
      (seg pt.buffer (pt.pieces.getD j (0, 0)) ++
        renderP pt.buffer (pt.pieces.drop (j + 1))) := by
  conv_lhs => rw [render_eq_renderP, pieces_decomp pt.pieces j hj]
  rw [renderP_append, renderP_cons]

theorem insert_spec (pt : PieceTable) (pos : Nat) (s : List Nat)
    (hInv : pt.Inv) (hpos : pos ≤ pt.totalLen) :
    ∃ pt', pt.insert pos s = some pt' ∧
      pt'.buffer = pt.buffer ++ s ∧
      pt'.Inv ∧
      pt'.render = pt.render.take pos ++ s ++ pt.render.drop pos := by
  obtain ⟨hne, hI2⟩ := hInv
  obtain ⟨j, e, hpi⟩ := piece_index_isSome pt pos hne hpos
  obtain ⟨hj, he, hpre, hpe, hpre'⟩ := piece_index_facts pt pos j e hpi
  rcases hgd : pt.pieces.getD j (0, 0) with ⟨o, l⟩
  rw [hgd] at he
  simp only at he
  have hmem : (o, l) ∈ pt.pieces := by
    rw [← hgd, List.getD_eq_getElem pt.pieces (0, 0) hj]
    exact List.getElem_mem hj
  have hol : o + l ≤ pt.buffer.length := hI2 (o, l) hmem
  -- the rendering decomposes around piece `j`
  have hA : (renderP pt.buffer (pt.pieces.take j)).length = sumTo pt.pieces j :=
    renderP_take_length pt.buffer pt.pieces j hI2
  have hSg : (seg pt.buffer (o, l)).length = l := seg_length pt.buffer (o, l) hol
  have hR : pt.render = renderP pt.buffer (pt.pieces.take j) ++
      (seg pt.buffer (o, l) ++ renderP pt.buffer (pt.pieces.drop (j + 1))) := by
    rw [render_decomp pt j hj, hgd]
  have hI2' : ∀ p ∈ pt.pieces, p.1 + p.2 ≤ (pt.buffer ++ s).length := by
    intro p hp
    have := hI2 p hp
    simp only [List.length_append]
    omega
  have hAs : renderP (pt.buffer ++ s) (pt.pieces.take j) =
      renderP pt.buffer (pt.pieces.take j) :=
    renderP_buffer_append pt.buffer s _ (fun p hp => hI2 p (List.mem_of_mem_take hp))
  have hCs : renderP (pt.buffer ++ s) (pt.pieces.drop (j + 1)) =
      renderP pt.buffer (pt.pieces.drop (j + 1)) :=
    renderP_buffer_append pt.buffer s _ (fun p hp => hI2 p (List.mem_of_mem_drop hp))
  rw [PieceTable.insert, hpi]
  simp only [hgd]
  by_cases h1 : pos = e
  · rw [if_pos h1]
    by_cases h2 : o + l = pt.buffer.length
    · -- extend the piece that ends at the end of the buffer
      rw [if_pos h2]
      refine ⟨_, rfl, rfl, ?_, ?_⟩
      · constructor
        · intro hc
          apply hne
          have := congrArg List.length hc
          simpa using this
        · intro p hp
          rcases List.mem_or_eq_of_mem_set hp with hp' | rfl
          · exact hI2' p hp'
          · simp only [List.length_append]
            omega
      · show renderP (pt.buffer ++ s) ((pt.pieces.set j (o, l + s.length))) = _
        rw [set_decomp pt.pieces j _ hj, renderP_append, renderP_cons, hAs, hCs]
        have hseg : seg (pt.buffer ++ s) (o, l + s.length) =
            seg pt.buffer (o, l) ++ s := by
          rw [seg_split, seg_buffer_append pt.buffer s (o, l) hol, h2, seg_last]
        have hR2 : pt.render = (renderP pt.buffer (pt.pieces.take j) ++
            seg pt.buffer (o, l)) ++ renderP pt.buffer (pt.pieces.drop (j + 1)) := by
          rw [hR, List.append_assoc]
        have hlen : pos = (renderP pt.buffer (pt.pieces.take j) ++
            seg pt.buffer (o, l)).length := by
          simp only [List.length_append, hA, hSg]
          omega
        have htake : pt.render.take pos = renderP pt.buffer (pt.pieces.take j) ++
            seg pt.buffer (o, l) := by
          rw [hR2, hlen, List.take_left]
        have hdrop : pt.render.drop pos = renderP pt.buffer (pt.pieces.drop (j + 1)) := by
          rw [hR2, hlen, List.drop_left]
        rw [hseg, htake, hdrop]
        simp
    · -- append a fresh piece after piece `j`
      rw [if_neg h2]
      have hins : pt.pieces.insertIdx (j + 1) (pt.buffer.length, s.length) =
          pt.pieces.take j ++ (o, l) :: (pt.buffer.length, s.length) ::
            pt.pieces.drop (j + 1) := by
        rw [insertIdx_eq_take_cons_drop _ (j + 1) pt.pieces (by omega)]
        rw [List.take_succ, List.getElem?_eq_getElem hj,
          ← List.getD_eq_getElem pt.pieces (0, 0) hj, hgd]
        simp
      refine ⟨_, rfl, rfl, ?_, ?_⟩
      · constructor
        · rw [hins]
          simp
        · intro p hp
          rw [hins] at hp
          simp only [List.mem_append, List.mem_cons] at hp
          rcases hp with hp' | rfl | rfl | hp'
          · exact hI2' p (List.mem_of_mem_take hp')
          · exact hI2' (o, l) hmem
          · simp
          · exact hI2' p (List.mem_of_mem_drop hp')
      · show renderP (pt.buffer ++ s) (pt.pieces.insertIdx (j + 1)
          (pt.buffer.length, s.length)) = _
        rw [hins, renderP_append, renderP_cons, renderP_cons, hAs, hCs,
          seg_buffer_append pt.buffer s (o, l) hol, seg_last]
        have hR2 : pt.render = (renderP pt.buffer (pt.pieces.take j) ++
            seg pt.buffer (o, l)) ++ renderP pt.buffer (pt.pieces.drop (j + 1)) := by
          rw [hR, List.append_assoc]
        have hlen : pos = (renderP pt.buffer (pt.pieces.take j) ++
            seg pt.buffer (o, l)).length := by
          simp only [List.length_append, hA, hSg]
          omega
        have htake : pt.render.take pos = renderP pt.buffer (pt.pieces.take j) ++
            seg pt.buffer (o, l) := by
          rw [hR2, hlen, List.take_left]
        have hdrop : pt.render.drop pos = renderP pt.buffer (pt.pieces.drop (j + 1)) := by
          rw [hR2, hlen, List.drop_left]
        rw [htake, hdrop]
        simp
  · -- split piece `j` at `pos`
    rw [if_neg h1]
    have hposlt : pos < e := by omega
    have ha : l - (e - pos) = pos - sumTo pt.pieces j := by omega
    have ha' : pos - sumTo pt.pieces j ≤ l := by omega
    have hfinal : ((pt.pieces.set j (o, l - (e - pos))).insertIdx (j + 1)
          (pt.buffer.length, s.length)).insertIdx (j + 2)
          (o + (l - (e - pos)), e - pos) =
        pt.pieces.take j ++ (o, pos - sumTo pt.pieces j) ::
          (pt.buffer.length, s.length) ::
          (o + (pos - sumTo pt.pieces j), e - pos) :: pt.pieces.drop (j + 1) := by
      rw [set_decomp pt.pieces j _ hj]
      have hlen1 : j + 1 ≤ (pt.pieces.take j ++ (o, l - (e - pos)) ::
          pt.pieces.drop (j + 1)).length := by
        simp
        omega
      rw [insertIdx_eq_take_cons_drop _ (j + 1) _ hlen1]
      have hjlen : (pt.pieces.take j).length = j := by
        rw [List.length_take]
        omega
      have htk : (pt.pieces.take j ++ (o, l - (e - pos)) ::
          pt.pieces.drop (j + 1)).take (j + 1) =
          pt.pieces.take j ++ [(o, l - (e - pos))] := by
        have h0 := take_len_succ_append (pt.pieces.take j) (o, l - (e - pos))
          (pt.pieces.drop (j + 1))
        rw [hjlen] at h0
        exact h0
      have hdr : (pt.pieces.take j ++ (o, l - (e - pos)) ::
          pt.pieces.drop (j + 1)).drop (j + 1) = pt.pieces.drop (j + 1) := by
        have h0 := drop_len_succ_append (pt.pieces.take j) (o, l - (e - pos))
          (pt.pieces.drop (j + 1))
        rw [hjlen] at h0
        exact h0
      rw [htk, hdr]
      have hlen2 : j + 2 ≤ (pt.pieces.take j ++ [(o, l - (e - pos))] ++
          (pt.buffer.length, s.length) :: pt.pieces.drop (j + 1)).length := by
        simp
        omega
      rw [insertIdx_eq_take_cons_drop _ (j + 2) _ hlen2]
      have hjlen2 : j + 2 = (pt.pieces.take j ++ [(o, l - (e - pos))] ++
          [(pt.buffer.length, s.length)]).length := by
        simp
        omega
      have hassoc : pt.pieces.take j ++ [(o, l - (e - pos))] ++
          (pt.buffer.length, s.length) :: pt.pieces.drop (j + 1) =
          (pt.pieces.take j ++ [(o, l - (e - pos))] ++
            [(pt.buffer.length, s.length)]) ++ pt.pieces.drop (j + 1) := by
        simp
      rw [hassoc, hjlen2, List.take_left, List.drop_left, ha]
      simp
    refine ⟨_, rfl, rfl, ?_, ?_⟩
    · constructor
      · rw [hfinal]
        simp
      · intro p hp
        rw [hfinal] at hp
        simp only [List.mem_append, List.mem_cons] at hp
        rcases hp with hp' | rfl | rfl | rfl | hp'
        · exact hI2' p (List.mem_of_mem_take hp')
        · simp only [List.length_append]
          omega
        · simp
        · simp only [List.length_append]
          omega
        · exact hI2' p (List.mem_of_mem_drop hp')
    · show renderP (pt.buffer ++ s) _ = _
      rw [hfinal, renderP_append, renderP_cons, renderP_cons, renderP_cons, hAs, hCs]
      have hb1 : o + (pos - sumTo pt.pieces j) ≤ pt.buffer.length := by omega
      rw [seg_buffer_append pt.buffer s _ (by simp; omega :
          (o, pos - sumTo pt.pieces j).1 + (o, pos - sumTo pt.pieces j).2 ≤
            pt.buffer.length),
        seg_buffer_append pt.buffer s _ (by simp; omega :
          (o + (pos - sumTo pt.pieces j), e - pos).1 +
            (o + (pos - sumTo pt.pieces j), e - pos).2 ≤ pt.buffer.length),
        seg_last, hR]
      have hposA : pos = (renderP pt.buffer (pt.pieces.take j)).length +
          (pos - sumTo pt.pieces j) := by
        rw [hA]
        omega
      conv_rhs => rw [hposA]
      rw [List.take_append, List.drop_append]
      rw [List.take_append_of_le_length (by rw [hSg]; omega),
        List.drop_append_of_le_length (by rw [hSg]; omega)]
      rw [seg_take pt.buffer o l _ ha', seg_drop]
      have hemin : l - (pos - sumTo pt.pieces j) = e - pos := by omega
      rw [hemin]
      simp

/-! ### Specification of `delete` -/

theorem sumLen_cons (p : Nat × Nat) (ps : List (Nat × Nat)) :
    sumLen (p :: ps) = p.2 + sumLen ps := by
  simp [sumLen]

theorem sumLen_take (ps : List (Nat × Nat)) (j : Nat) :
    sumLen (ps.take j) = sumTo ps j := rfl

theorem set_insertIdx_decomp (ps : List (Nat × Nat)) (j : Nat) (p q : Nat × Nat)
    (hj : j < ps.length) :
    (ps.set j p).insertIdx (j + 1) q = ps.take j ++ p :: q :: ps.drop (j + 1) := by
  rw [set_decomp ps j p hj]
  have hjlen : (ps.take j).length = j := by
    rw [List.length_take]
    omega
  rw [insertIdx_eq_take_cons_drop _ (j + 1) _ (by simp; omega)]
  have h1 := take_len_succ_append (ps.take j) p (ps.drop (j + 1))
  have h2 := drop_len_succ_append (ps.take j) p (ps.drop (j + 1))
  rw [hjlen] at h1 h2
  rw [h1, h2]
  simp

theorem take_two_append {α : Type} (A B C : List α) :
    (A ++ (B ++ C)).take (A.length + B.length) = A ++ B := by
  rw [List.take_append, List.take_left]

theorem drop_two_append_add {α : Type} (A B C : List α) (k : Nat) :
    (A ++ (B ++ C)).drop (A.length + B.length + k) = C.drop k := by
  rw [Nat.add_assoc, List.drop_append, List.drop_append]

theorem deleteAux_spec (fuel : Nat) :
    ∀ (pt : PieceTable) (pos len : Nat), len < fuel → pt.Inv → 0 < len →
      pos + len ≤ pt.totalLen →
      ∃ pt', PieceTable.deleteAux fuel pt pos len = some pt' ∧
        pt'.buffer = pt.buffer ∧ pt'.Inv ∧
        pt'.render = pt.render.take pos ++ pt.render.drop (pos + len) := by
  induction fuel with
  | zero => intro pt pos len hlf; omega
  | succ fuel ih =>
    intro pt pos len hlf hInv hlen hrange
    obtain ⟨hne, hI2⟩ := hInv
    obtain ⟨j, e, hdel⟩ := piece_index_del_isSome pt pos (by
      rw [PieceTable.totalLen] at hrange
      omega)
    obtain ⟨hj, he, hpre, hpose⟩ := piece_index_del_facts pt pos j e hdel
    rcases hgd : pt.pieces.getD j (0, 0) with ⟨o, l⟩
    rw [hgd] at he
    simp only at he
    have hmem : (o, l) ∈ pt.pieces := by
      rw [← hgd, List.getD_eq_getElem pt.pieces (0, 0) hj]
      exact List.getElem_mem hj
    have hol : o + l ≤ pt.buffer.length := hI2 (o, l) hmem
    have hA : (renderP pt.buffer (pt.pieces.take j)).length = sumTo pt.pieces j :=
      renderP_take_length pt.buffer pt.pieces j hI2
    have hSg : (seg pt.buffer (o, l)).length = l := seg_length pt.buffer (o, l) hol
    have hR : pt.render = renderP pt.buffer (pt.pieces.take j) ++
        (seg pt.buffer (o, l) ++ renderP pt.buffer (pt.pieces.drop (j + 1))) := by
      rw [render_decomp pt j hj, hgd]
    have hsums : sumLen pt.pieces =
        sumTo pt.pieces j + (l + sumLen (pt.pieces.drop (j + 1))) := by
      have h0 := congrArg sumLen (pieces_decomp pt.pieces j hj)
      rw [sumLen_append, sumLen_take, hgd, sumLen_cons] at h0
      exact h0
    have htake : ∀ a, a ≤ l → pt.render.take (sumTo pt.pieces j + a) =
        renderP pt.buffer (pt.pieces.take j) ++ seg pt.buffer (o, a) := by
      intro a haa
      have hq : sumTo pt.pieces j + a =
          (renderP pt.buffer (pt.pieces.take j)).length + a := by
        rw [hA]
      rw [hR, hq, List.take_append,
        List.take_append_of_le_length (by rw [hSg]; omega),
        seg_take pt.buffer o l a haa]
    have hdropSmall : ∀ a, a ≤ l → pt.render.drop (sumTo pt.pieces j + a) =
        seg pt.buffer (o + a, l - a) ++
          renderP pt.buffer (pt.pieces.drop (j + 1)) := by
      intro a haa
      have hq : sumTo pt.pieces j + a =
          (renderP pt.buffer (pt.pieces.take j)).length + a := by
        rw [hA]
      rw [hR, hq, List.drop_append,
        List.drop_append_of_le_length (by rw [hSg]; omega), seg_drop]
    have hdropBig : ∀ k, pt.render.drop (sumTo pt.pieces j + l + k) =
        (renderP pt.buffer (pt.pieces.drop (j + 1))).drop k := by
      intro k
      have hq : sumTo pt.pieces j + l + k =
          (renderP pt.buffer (pt.pieces.take j)).length +
            (seg pt.buffer (o, l)).length + k := by
        rw [hA, hSg]
      rw [hR, hq, drop_two_append_add]
    rw [PieceTable.deleteAux, hdel]
    simp only [hgd]
    by_cases hstart : pos = e - l
    · have hppre : pos = sumTo pt.pieces j := by omega
      have ht : pt.render.take pos = renderP pt.buffer (pt.pieces.take j) ++
          seg pt.buffer (o, 0) := by
        have h0 := htake 0 (by omega)
        rw [Nat.add_zero, ← hppre] at h0
        exact h0
      rw [if_pos hstart]
      by_cases heop : pos + len = e
      · -- delete exactly piece `j`
        rw [if_pos heop]
        have hd : pt.render.drop (pos + len) =
            renderP pt.buffer (pt.pieces.drop (j + 1)) := by
          have h0 := hdropBig 0
          rw [Nat.add_zero, (by omega : sumTo pt.pieces j + l = pos + len),
            List.drop_zero] at h0
          exact h0
        refine ⟨_, rfl, empty_check_buffer _, ?_, ?_⟩
        · apply empty_check_inv
          show ∀ p ∈ pt.pieces.eraseIdx j, p.1 + p.2 ≤ pt.buffer.length
          intro p hp
          rw [List.eraseIdx_eq_take_drop_succ] at hp
          rcases List.mem_append.mp hp with hp' | hp'
          · exact hI2 p (List.mem_of_mem_take hp')
          · exact hI2 p (List.mem_of_mem_drop hp')
        · rw [empty_check_render]
          show renderP pt.buffer (pt.pieces.eraseIdx j) = _
          rw [List.eraseIdx_eq_take_drop_succ, renderP_append, ht, hd, seg_zero_len]
          simp
      · rw [if_neg heop]
        by_cases hov : e < pos + len
        · -- piece `j` deleted entirely, deletion continues in later pieces
          rw [if_pos hov]
          have hl0 : 0 < l := by omega
          have hlenl : l < len := by omega
          have hd : pt.render.drop (pos + len) =
              (renderP pt.buffer (pt.pieces.drop (j + 1))).drop (len - l) := by
            have h0 := hdropBig (len - l)
            rw [(by omega : sumTo pt.pieces j + l + (len - l) = pos + len)] at h0
            exact h0
          have hsums1 : sumLen (pt.pieces.eraseIdx j) + l = sumLen pt.pieces := by
            rw [List.eraseIdx_eq_take_drop_succ, sumLen_append, sumLen_take]
            omega
          obtain ⟨pt₂, hdel₂, hbuf₂, hInv₂, hrender₂⟩ :=
            ih ⟨pt.buffer, pt.pieces.eraseIdx j⟩ pos (len - l) (by omega)
              ⟨by
                show pt.pieces.eraseIdx j ≠ []
                intro hc
                have h0 : sumLen (pt.pieces.eraseIdx j) = 0 := by
                  rw [hc]
                  rfl
                rw [PieceTable.totalLen] at hrange
                omega, by
                show ∀ p ∈ pt.pieces.eraseIdx j, p.1 + p.2 ≤ pt.buffer.length
                intro p hp
                rw [List.eraseIdx_eq_take_drop_succ] at hp
                rcases List.mem_append.mp hp with hp' | hp'
                · exact hI2 p (List.mem_of_mem_take hp')
                · exact hI2 p (List.mem_of_mem_drop hp')⟩
              (by omega)
              (by
                show pos + (len - l) ≤ sumLen (pt.pieces.eraseIdx j)
                rw [PieceTable.totalLen] at hrange
                omega)
          rw [hdel₂]
          refine ⟨_, rfl, by rw [empty_check_buffer, hbuf₂], ?_, ?_⟩
          · apply empty_check_inv
            intro p hp
            exact hInv₂.2 p hp
          · rw [empty_check_render, hrender₂]
            have hR₁ : PieceTable.render ⟨pt.buffer, pt.pieces.eraseIdx j⟩ =
                renderP pt.buffer (pt.pieces.take j) ++
                  renderP pt.buffer (pt.pieces.drop (j + 1)) := by
              show renderP pt.buffer (pt.pieces.eraseIdx j) = _
              rw [List.eraseIdx_eq_take_drop_succ, renderP_append]
            have htk₁ : (PieceTable.render ⟨pt.buffer, pt.pieces.eraseIdx j⟩).take pos =
                renderP pt.buffer (pt.pieces.take j) := by
              rw [hR₁, hppre, ← hA, List.take_left]
            have hdr₁ : (PieceTable.render ⟨pt.buffer, pt.pieces.eraseIdx j⟩).drop
                (pos + (len - l)) =
                (renderP pt.buffer (pt.pieces.drop (j + 1))).drop (len - l) := by
              rw [hR₁, (by rw [hA]; omega : pos + (len - l) =
                (renderP pt.buffer (pt.pieces.take j)).length + (len - l)),
                List.drop_append]
            rw [htk₁, hdr₁, ht, hd, seg_zero_len]
            simp
        · -- delete an initial part of piece `j`
          rw [if_neg hov]
          have hlt : len < l := by omega
          have hd : pt.render.drop (pos + len) =
              seg pt.buffer (o + len, l - len) ++
                renderP pt.buffer (pt.pieces.drop (j + 1)) := by
            have h0 := hdropSmall len (by omega)
            rw [(by omega : sumTo pt.pieces j + len = pos + len)] at h0
            exact h0
          refine ⟨_, rfl, empty_check_buffer _, ?_, ?_⟩
          · apply empty_check_inv
            show ∀ p ∈ pt.pieces.set j (o + len, l - len),
              p.1 + p.2 ≤ pt.buffer.length
            intro p hp
            rcases List.mem_or_eq_of_mem_set hp with hp' | rfl
            · exact hI2 p hp'
            · simp only
              omega
          · rw [empty_check_render]
            show renderP pt.buffer (pt.pieces.set j (o + len, l - len)) = _
            rw [set_decomp pt.pieces j _ hj, renderP_append, renderP_cons, ht, hd,
              seg_zero_len]
            simp
    · -- `pos` is strictly inside piece `j`
      rw [if_neg hstart]
      have hppre : sumTo pt.pieces j < pos := by omega
      have ht : pt.render.take pos = renderP pt.buffer (pt.pieces.take j) ++
          seg pt.buffer (o, pos - sumTo pt.pieces j) := by
        have h0 := htake (pos - sumTo pt.pieces j) (by omega)
        rw [(by omega : sumTo pt.pieces j + (pos - sumTo pt.pieces j) = pos)] at h0
        exact h0
      by_cases heop : pos + len = e
      · -- delete the final part of piece `j`
        rw [if_pos heop]
        have hd : pt.render.drop (pos + len) =
            renderP pt.buffer (pt.pieces.drop (j + 1)) := by
          have h0 := hdropBig 0
          rw [Nat.add_zero, (by omega : sumTo pt.pieces j + l = pos + len),
            List.drop_zero] at h0
          exact h0
        refine ⟨_, rfl, rfl, ?_, ?_⟩
        · constructor
          · show pt.pieces.set j (o, l - len) ≠ []
            apply List.length_pos.mp
            rw [List.length_set]
            exact List.length_pos.mpr hne
          · show ∀ p ∈ pt.pieces.set j (o, l - len), p.1 + p.2 ≤ pt.buffer.length
            intro p hp
            rcases List.mem_or_eq_of_mem_set hp with hp' | rfl
            · exact hI2 p hp'
            · simp only
              omega
        · show renderP pt.buffer (pt.pieces.set j (o, l - len)) = _
          rw [set_decomp pt.pieces j _ hj, renderP_append, renderP_cons, ht, hd,
            (by omega : l - len = pos - sumTo pt.pieces j)]
          simp
      · rw [if_neg heop]
        by_cases hov : e < pos + len
        · -- shrink piece `j`, deletion continues in later pieces
          rw [if_pos hov]
          have hovpos : 0 < e - pos := by omega
          have hovlen : e - pos < len := by omega
          have ha : l - (e - pos) = pos - sumTo pt.pieces j := by omega
          have ha' : pos - sumTo pt.pieces j < l := by omega
          have hd : pt.render.drop (pos + len) =
              (renderP pt.buffer (pt.pieces.drop (j + 1))).drop
                (len - (e - pos)) := by
            have h0 := hdropBig (len - (e - pos))
            rw [(by omega :
              sumTo pt.pieces j + l + (len - (e - pos)) = pos + len)] at h0
            exact h0
          have hsums1 : sumLen (pt.pieces.set j (o, l - (e - pos))) + (e - pos) =
              sumLen pt.pieces := by
            rw [set_decomp pt.pieces j _ hj, sumLen_append, sumLen_take, sumLen_cons]
            simp only
            omega
          obtain ⟨pt₂, hdel₂, hbuf₂, hInv₂, hrender₂⟩ :=
            ih ⟨pt.buffer, pt.pieces.set j (o, l - (e - pos))⟩ pos (len - (e - pos))
              (by omega)
              ⟨by
                show pt.pieces.set j (o, l - (e - pos)) ≠ []
                apply List.length_pos.mp
                rw [List.length_set]
                exact List.length_pos.mpr hne, by
                show ∀ p ∈ pt.pieces.set j (o, l - (e - pos)),
                  p.1 + p.2 ≤ pt.buffer.length
                intro p hp
                rcases List.mem_or_eq_of_mem_set hp with hp' | rfl
                · exact hI2 p hp'
                · simp only
                  omega⟩
              (by omega)
              (by
                show pos + (len - (e - pos)) ≤ sumLen (pt.pieces.set j (o, l - (e - pos)))
                rw [PieceTable.totalLen] at hrange
                omega)
          rw [hdel₂]
          refine ⟨_, rfl, by rw [empty_check_buffer, hbuf₂], ?_, ?_⟩
          · apply empty_check_inv
            intro p hp
            exact hInv₂.2 p hp
          · rw [empty_check_render, hrender₂]
            have hSa : (seg pt.buffer (o, pos - sumTo pt.pieces j)).length =
                pos - sumTo pt.pieces j :=
              seg_length pt.buffer (o, pos - sumTo pt.pieces j) (by simp only; omega)
            have hR₁ : PieceTable.render
                ⟨pt.buffer, pt.pieces.set j (o, l - (e - pos))⟩ =
                renderP pt.buffer (pt.pieces.take j) ++
                  (seg pt.buffer (o, pos - sumTo pt.pieces j) ++
                    renderP pt.buffer (pt.pieces.drop (j + 1))) := by
              show renderP pt.buffer (pt.pieces.set j (o, l - (e - pos))) = _
              rw [set_decomp pt.pieces j _ hj, renderP_append, renderP_cons, ha]
            have htk₁ : (PieceTable.render
                ⟨pt.buffer, pt.pieces.set j (o, l - (e - pos))⟩).take pos =
                renderP pt.buffer (pt.pieces.take j) ++
                  seg pt.buffer (o, pos - sumTo pt.pieces j) := by
              have h0 := take_two_append (renderP pt.buffer (pt.pieces.take j))
                (seg pt.buffer (o, pos - sumTo pt.pieces j))
                (renderP pt.buffer (pt.pieces.drop (j + 1)))
              rw [hA, hSa,
                (by omega : sumTo pt.pieces j + (pos - sumTo pt.pieces j) = pos)]
                at h0
              rw [hR₁]
              exact h0
            have hdr₁ : (PieceTable.render
                ⟨pt.buffer, pt.pieces.set j (o, l - (e - pos))⟩).drop
                (pos + (len - (e - pos))) =
                (renderP pt.buffer (pt.pieces.drop (j + 1))).drop
                  (len - (e - pos)) := by
              have h0 := drop_two_append_add (renderP pt.buffer (pt.pieces.take j))
                (seg pt.buffer (o, pos - sumTo pt.pieces j))
                (renderP pt.buffer (pt.pieces.drop (j + 1))) (len - (e - pos))
              rw [hA, hSa,
                (by omega : sumTo pt.pieces j + (pos - sumTo pt.pieces j) +
                  (len - (e - pos)) = pos + (len - (e - pos)))] at h0
              rw [hR₁]
              exact h0
            rw [htk₁, hdr₁, ht, hd]
        · -- split piece `j` around the deleted middle range
          rw [if_neg hov]
          have hlt : pos + len < e := by omega
          have ha : l - (e - pos) = pos - sumTo pt.pieces j := by omega
          have hd : pt.render.drop (pos + len) =
              seg pt.buffer (o + (pos - sumTo pt.pieces j + len),
                l - (pos - sumTo pt.pieces j + len)) ++
                renderP pt.buffer (pt.pieces.drop (j + 1)) := by
            have h0 := hdropSmall (pos - sumTo pt.pieces j + len) (by omega)
            rw [(by omega :
              sumTo pt.pieces j + (pos - sumTo pt.pieces j + len) = pos + len)] at h0
            exact h0
          refine ⟨_, rfl, rfl, ?_, ?_⟩
          · constructor
            · show (pt.pieces.set j (o, l - (e - pos))).insertIdx (j + 1)
                (o + (l - (e - pos)) + len, e - pos - len) ≠ []
              apply List.length_pos.mp
              rw [set_insertIdx_decomp pt.pieces j _ _ hj]
              simp
            · show ∀ p ∈ (pt.pieces.set j (o, l - (e - pos))).insertIdx (j + 1)
                (o + (l - (e - pos)) + len, e - pos - len),
                p.1 + p.2 ≤ pt.buffer.length
              intro p hp
              rw [set_insertIdx_decomp pt.pieces j _ _ hj] at hp
              simp only [List.mem_append, List.mem_cons] at hp
              rcases hp with hp' | rfl | rfl | hp'
              · exact hI2 p (List.mem_of_mem_take hp')
              · simp only
                omega
              · simp only
                omega
              · exact hI2 p (List.mem_of_mem_drop hp')
          · show renderP pt.buffer ((pt.pieces.set j (o, l - (e - pos))).insertIdx
              (j + 1) (o + (l - (e - pos)) + len, e - pos - len)) = _
            rw [set_insertIdx_decomp pt.pieces j _ _ hj, renderP_append, renderP_cons,
              renderP_cons, ht, hd, ha,
              (by omega : o + (pos - sumTo pt.pieces j) + len =
                o + (pos - sumTo pt.pieces j + len)),
              (by omega : e - pos - len = l - (pos - sumTo pt.pieces j + len))]
            simp

theorem delete_spec (pt : PieceTable) (pos len : Nat)
    (hInv : pt.Inv) (hlen : 0 < len) (hrange : pos + len ≤ pt.totalLen) :
    ∃ pt', pt.delete pos len = some pt' ∧
      pt'.buffer = pt.buffer ∧ pt'.Inv ∧
      pt'.render = pt.render.take pos ++ pt.render.drop (pos + len) :=
  deleteAux_spec (len + 1) pt pos len (by omega) hInv hlen hrange

instance (s : List Nat) : Decidable (headOk s) := by
  unfold headOk
  infer_instance

instance (pt : PieceTable) : Decidable pt.Inv := by
  unfold PieceTable.Inv
  infer_instance

instance (pt : PieceTable) : Decidable pt.WF := by
  unfold PieceTable.WF headOk
  infer_instance

theorem headOk_some {s : List Nat} {b : Nat} (h : headOk s) (hb : s.head? = some b) :
    isCont b = false := by
  rw [headOk, hb] at h
  simpa using h

theorem headOk_of_forall {s : List Nat}
    (h : ∀ b, s.head? = some b → isCont b = false) : headOk s := by
  rw [headOk]
  cases hs : s.head? with
  | none => rfl
  | some b => simpa using h b hs

/-! ### Claims C1 and C2: `delete` and `insert` against the rendering -/

/-- **C1.**  For every `PieceTable` satisfying the piece-table invariants and
every `pos`, `length` with `length > 0`, `valid_index pos` and
`valid_index (pos + length)`, after `delete(pos, length)` the rendered text is
the old rendered text with the byte range `[pos, pos+length)` removed, i.e.
`old[0..pos] ++ old[pos+length..]`. -/
theorem delete_removes_byte_range (pt : PieceTable) (pos len : Nat)
    (hwf : pt.WF) (hlen : 0 < len)
    (hv1 : pt.valid_index pos = true) (hv2 : pt.valid_index (pos + len) = true) :
    ∃ pt', pt.delete pos len = some pt' ∧
      pt'.render = pt.render.take pos ++ pt.render.drop (pos + len) := by
  obtain ⟨pt', h1, _, _, h4⟩ := delete_spec pt pos len ⟨hwf.1, hwf.2.1⟩ hlen
    (le_totalLen_of_valid pt (pos + len) hv2)
  exact ⟨pt', h1, h4⟩

theorem delete_removes_byte_range_witness :
    (PieceTable.fromBuffer [104, 105]).WF ∧ 0 < 1 ∧
    (PieceTable.fromBuffer [104, 105]).valid_index 0 = true ∧
    (PieceTable.fromBuffer [104, 105]).valid_index (0 + 1) = true ∧
    ∃ pt', (PieceTable.fromBuffer [104, 105]).delete 0 1 = some pt' ∧
      pt'.render = (PieceTable.fromBuffer [104, 105]).render.take 0 ++
        (PieceTable.fromBuffer [104, 105]).render.drop (0 + 1) :=
  ⟨by decide, by decide, by decide, by decide,
    delete_removes_byte_range (PieceTable.fromBuffer [104, 105]) 0 1
      (by decide) (by decide) (by decide) (by decide)⟩

/-- **C2.**  For every `PieceTable` satisfying the piece-table invariants,
every `pos` with `valid_index pos`, and every string `s`, after
`insert(pos, s)` the rendered text is the old rendered text with `s` spliced
in immediately before byte `pos`, and `s` is appended at the end of the
internal buffer. -/
theorem insert_splices_content (pt : PieceTable) (pos : Nat) (s : List Nat)
    (hwf : pt.WF) (hv : pt.valid_index pos = true) :
    ∃ pt', pt.insert pos s = some pt' ∧
      pt'.buffer = pt.buffer ++ s ∧
      pt'.render = pt.render.take pos ++ s ++ pt.render.drop pos := by
  obtain ⟨pt', h1, h2, _, h4⟩ := insert_spec pt pos s ⟨hwf.1, hwf.2.1⟩
    (le_totalLen_of_valid pt pos hv)
  exact ⟨pt', h1, h2, h4⟩

theorem insert_splices_content_witness :
    (PieceTable.fromBuffer [104, 105]).WF ∧
    (PieceTable.fromBuffer [104, 105]).valid_index 1 = true ∧
    ∃ pt', (PieceTable.fromBuffer [104, 105]).insert 1 [33] = some pt' ∧
      pt'.buffer = (PieceTable.fromBuffer [104, 105]).buffer ++ [33] ∧
      pt'.render = (PieceTable.fromBuffer [104, 105]).render.take 1 ++ [33] ++
        (PieceTable.fromBuffer [104, 105]).render.drop 1 :=
  ⟨by decide, by decide,
    insert_splices_content (PieceTable.fromBuffer [104, 105]) 1 [33]
      (by decide) (by decide)⟩

/-! ### Claims C6, C7, C9: the `History` revision log -/

theorem transformLoop_error (es : List (Nat × Nat)) (pos : Nat) (msg : String)
    (h : History.transformLoop es pos = .error msg) : msg = "not implemented" := by
  induction es generalizing pos with
  | nil => exact absurd h (by rw [History.transformLoop]; intro hc; cases hc)
  | cons p rest ih =>
    rcases p with ⟨o, n⟩
    rw [History.transformLoop] at h
    by_cases h1 : o < pos
    · rw [if_pos h1] at h
      exact ih _ h
    · rw [if_neg h1] at h
      by_cases h2 : pos < min o n
      · rw [if_pos h2] at h
        exact ih _ h
      · rw [if_neg h2] at h
        exact (Except.error.inj h).symm

/-- **C6.**  `History.transform` returns the error `"old revision"` exactly
when `edit.rev < first_rev`, and the error `"future revision"` exactly when
`edit.rev ≥ first_rev` and `edit.rev` exceeds the current revision
`first_rev + |entries|`; in every other case neither of these two errors is
returned. -/
theorem transform_error_classification (h : History) (e : Edit) :
    (h.transform e = .error "old revision" ↔ e.rev < h.first_rev) ∧
    (h.transform e = .error "future revision" ↔
      h.first_rev ≤ e.rev ∧ h.first_rev + h.edits.length < e.rev) := by
  rw [History.transform]
  by_cases h1 : e.rev < h.first_rev
  · rw [if_pos h1]
    refine ⟨by simp [h1], ?_⟩
    constructor
    · intro hc
      exact absurd (Except.error.inj hc) (by decide)
    · intro hc
      omega
  · rw [if_neg h1]
    by_cases h2 : h.first_rev + h.edits.length < e.rev
    · rw [if_pos h2]
      refine ⟨?_, by simp [h1, h2]; omega⟩
      constructor
      · intro hc
        exact absurd (Except.error.inj hc) (by decide)
      · intro hc
        omega
    · rw [if_neg h2]
      dsimp only
      cases hl : History.transformLoop (h.edits.drop (e.rev - h.first_rev)) e.pos with
      | error msg =>
        have hmsg := transformLoop_error _ _ _ hl
        subst hmsg
        refine ⟨?_, ?_⟩
        · constructor
          · intro hc
            exact absurd (Except.error.inj hc) (by decide)
          · intro hc
            omega
        · constructor
          · intro hc
            exact absurd (Except.error.inj hc) (by decide)
          · intro hc
            omega
      | ok pos' =>
        refine ⟨?_, ?_⟩
        · constructor
          · intro hc
            cases hc
          · intro hc
            omega
        · constructor
          · intro hc
            cases hc
          · intro hc
            omega

/-- **C9.**  When `edit.rev` equals the current revision
`first_rev + |entries|`, `transform` succeeds and returns the edit
unchanged. -/
theorem transform_at_current_rev (h : History) (e : Edit) (hrev : e.rev = h.rev) :
    h.transform e = .ok e := by
  rw [History.rev] at hrev
  rw [History.transform, if_neg (by omega), if_neg (by omega)]
  dsimp only
  rw [(by omega : e.rev - h.first_rev = h.edits.length), List.drop_length,
    History.transformLoop]

theorem transform_at_current_rev_witness :
    (⟨3, 2, .Insert [97]⟩ : Edit).rev = (History.mk 1 [(0, 5)]).rev ∧
    (History.mk 1 [(0, 5)]).transform ⟨3, 2, .Insert [97]⟩ = .ok ⟨3, 2, .Insert [97]⟩ := by
  constructor
  · decide
  · exact transform_at_current_rev (History.mk 1 [(0, 5)]) ⟨3, 2, .Insert [97]⟩ (by decide)

/-- **C7, counterexample.**  The claim says `acknowledge rev` is a no-op
whenever `rev ≤ first_rev` (with `rev ≤ current_rev`).  With
`first_rev = 1`, no entries (current revision `1`) and `rev = 0` the
preconditions hold, yet the call rewrites `first_rev` to `0`, changing the
history. -/
theorem acknowledge_noop_counterexample :
    0 ≤ (History.mk 1 []).rev ∧ 0 ≤ (History.mk 1 []).first_rev ∧
    (History.mk 1 []).acknowledge 0 ≠ History.mk 1 [] := by
  refine ⟨by decide, by decide, by decide⟩

/-- **C7, amended.**  For `first_rev ≤ rev ≤ current_rev`,
`History.acknowledge rev` drops entries from the front until
`first_rev = rev` and leaves the current revision unchanged, and it is a
no-op exactly when `rev = first_rev`.  (For `rev < first_rev` the code is
*not* a no-op: it lowers `first_rev` to `rev` without touching the entries,
which also lowers the current revision.) -/
theorem acknowledge_amended (h : History) (rev : Nat)
    (h1 : h.first_rev ≤ rev) (h2 : rev ≤ h.rev) :
    (h.acknowledge rev).first_rev = rev ∧
    (h.acknowledge rev).edits = h.edits.drop (rev - h.first_rev) ∧
    (h.acknowledge rev).rev = h.rev ∧
    (rev = h.first_rev → h.acknowledge rev = h) := by
  rw [History.rev] at h2
  refine ⟨rfl, rfl, ?_, ?_⟩
  · rw [History.rev, History.rev, History.acknowledge]
    simp only [List.length_drop]
    omega
  · intro h3
    rw [History.acknowledge, h3]
    simp

theorem acknowledge_amended_witness :
    (History.mk 1 [(0, 2), (3, 1)]).first_rev ≤ 2 ∧
    2 ≤ (History.mk 1 [(0, 2), (3, 1)]).rev ∧
    ((History.mk 1 [(0, 2), (3, 1)]).acknowledge 2).first_rev = 2 ∧
    ((History.mk 1 [(0, 2), (3, 1)]).acknowledge 2).edits =
      (History.mk 1 [(0, 2), (3, 1)]).edits.drop
        (2 - (History.mk 1 [(0, 2), (3, 1)]).first_rev) ∧
    ((History.mk 1 [(0, 2), (3, 1)]).acknowledge 2).rev =
      (History.mk 1 [(0, 2), (3, 1)]).rev ∧
    (2 = (History.mk 1 [(0, 2), (3, 1)]).first_rev →
      (History.mk 1 [(0, 2), (3, 1)]).acknowledge 2 = History.mk 1 [(0, 2), (3, 1)]) := by
  have h0 := acknowledge_amended (History.mk 1 [(0, 2), (3, 1)]) 2 (by decide) (by decide)
  exact ⟨by decide, by decide, h0.1, h0.2.1, h0.2.2.1, h0.2.2.2⟩

/-! ### Claims C3 and C4: the `Editor` coordinator -/

deriving instance DecidableEq for Except

theorem insertAck_self_mem {Cid : Type} [DecidableEq Cid]
    (m : List (Cid × Nat)) (id : Cid) (rev : Nat) :
    rev ∈ (insertAck m id rev).map Prod.snd := by
  rw [insertAck]
  by_cases h : m.any (fun p => p.1 = id)
  · rw [if_pos h]
    obtain ⟨p, hp, hpe⟩ := List.any_eq_true.mp h
    refine List.mem_map.mpr ⟨(id, rev), List.mem_map.mpr ⟨p, hp, ?_⟩, rfl⟩
    simp only [of_decide_eq_true hpe, if_pos]
  · rw [if_neg h]
    simp

theorem insertAck_values_subset {Cid : Type} [DecidableEq Cid]
    (m : List (Cid × Nat)) (id : Cid) (rev : Nat) (v : Nat)
    (hv : v ∈ (insertAck m id rev).map Prod.snd) :
    v ∈ m.map Prod.snd ∨ v = rev := by
  rw [insertAck] at hv
  by_cases h : m.any (fun p => p.1 = id)
  · rw [if_pos h] at hv
    obtain ⟨q, hq, hqv⟩ := List.mem_map.mp hv
    obtain ⟨p, hp, hpq⟩ := List.mem_map.mp hq
    by_cases hid : p.1 = id
    · rw [if_pos hid] at hpq
      right
      rw [← hqv, ← hpq]
    · rw [if_neg hid] at hpq
      left
      exact List.mem_map.mpr ⟨p, hp, by rw [hpq, hqv]⟩
  · rw [if_neg h] at hv
    rw [List.map_append] at hv
    rcases List.mem_append.mp hv with hv' | hv'
    · left
      exact hv'
    · right
      simpa using hv'

/-- The shape of every successful `Editor.edit`: the edit is transformed
against the history trimmed by the acknowledgement step, and the result is
recorded there. -/
theorem edit_ok_shape {Cid : Type} [DecidableEq Cid] (ed : Editor Cid) (id : Cid)
    (e : Edit) (ed' : Editor Cid) (e' : Edit)
    (h : ed.edit id e = some (ed', .ok e')) :
    ∃ e1, (ed.acknowledge id e.rev).hist.transform e = .ok e1 ∧
      e' = ((ed.acknowledge id e.rev).hist.record e1).2 ∧
      ed'.hist = ((ed.acknowledge id e.rev).hist.record e1).1 ∧
      ed'.acks = (ed.acknowledge id e.rev).acks ∧
      ((∃ c, e1.action = .Insert c ∧
          (ed.acknowledge id e.rev).pt.valid_index e1.pos = true ∧
          (ed.acknowledge id e.rev).pt.insert e1.pos c = some ed'.pt) ∨
        (∃ len, e1.action = .Delete len ∧ 0 < len ∧
          (ed.acknowledge id e.rev).pt.valid_index e1.pos = true ∧
          (ed.acknowledge id e.rev).pt.valid_index (e1.pos + len) = true ∧
          (ed.acknowledge id e.rev).pt.delete e1.pos len = some ed'.pt)) := by
  unfold Editor.edit at h
  dsimp only at h
  split at h
  · simp only [Option.some.injEq, Prod.mk.injEq] at h
    exact absurd h.2 (by simp)
  · rename_i e1 ht
    refine ⟨e1, ht, ?_⟩
    split at h
    · rename_i c ha
      split at h
      · rename_i hguard
        split at h
        · rename_i pt' hins
          simp only [Option.some.injEq, Prod.mk.injEq, Except.ok.injEq] at h
          obtain ⟨h1, h2⟩ := h
          refine ⟨h2.symm, by rw [← h1], by rw [← h1], Or.inl ⟨c, ha, hguard, ?_⟩⟩
          rw [← h1]
          exact hins
        · cases h
      · simp only [Option.some.injEq, Prod.mk.injEq] at h
        exact absurd h.2 (by simp)
    · rename_i len ha
      split at h
      · rename_i hguard
        split at h
        · rename_i pt' hdel
          simp only [Option.some.injEq, Prod.mk.injEq, Except.ok.injEq] at h
          obtain ⟨h1, h2⟩ := h
          refine ⟨h2.symm, by rw [← h1], by rw [← h1],
            Or.inr ⟨len, ha, hguard.1, hguard.2.1, hguard.2.2, ?_⟩⟩
          rw [← h1]
          exact hdel
        · cases h
      · simp only [Option.some.injEq, Prod.mk.injEq] at h
        exact absurd h.2 (by simp)

/-- **C4, counterexample.**  On a fresh editor (no clients), submitting an
insert at the invalid position `1` returns the error `"invalid index"`, yet
the editor state after the call differs from the state before it: the
client's acknowledgement was recorded in the map. -/
theorem edit_error_counterexample :
    Editor.edit (Editor.new : Editor Nat) 0 ⟨1, 0, .Insert [120]⟩ =
      some (⟨PieceTable.new, History.new, [(0, 0)]⟩, .error "invalid index") ∧
    (⟨PieceTable.new, History.new, [(0, 0)]⟩ : Editor Nat) ≠ Editor.new := by
  exact ⟨by decide, by decide⟩

/-- **C4, amended.**  If `Editor.edit` returns an error, the `PieceTable` is
exactly as it was before the call, and the whole editor state equals the
state produced by the initial acknowledgement step
`acknowledge(id, edit.rev)` alone — the acknowledgement map and the
trimmed History keep that update even on error; nothing else changes. -/
theorem edit_error_state {Cid : Type} [DecidableEq Cid] (ed : Editor Cid) (id : Cid)
    (e : Edit) (ed' : Editor Cid) (msg : String)
    (h : ed.edit id e = some (ed', .error msg)) :
    ed' = ed.acknowledge id e.rev ∧ ed'.pt = ed.pt := by
  have hstep : ed' = ed.acknowledge id e.rev := by
    unfold Editor.edit at h
    dsimp only at h
    split at h
    · simp only [Option.some.injEq, Prod.mk.injEq] at h
      exact h.1.symm
    · rename_i e1 ht
      split at h
      · split at h
        · split at h
          · simp only [Option.some.injEq, Prod.mk.injEq] at h
            exact absurd h.2 (by simp)
          · cases h
        · simp only [Option.some.injEq, Prod.mk.injEq] at h
          exact h.1.symm
      · split at h
        · split at h
          · simp only [Option.some.injEq, Prod.mk.injEq] at h
            exact absurd h.2 (by simp)
          · cases h
        · simp only [Option.some.injEq, Prod.mk.injEq] at h
          exact h.1.symm
  exact ⟨hstep, by rw [hstep]; rfl⟩

theorem edit_error_state_witness :
    Editor.edit (Editor.new : Editor Nat) 0 ⟨1, 0, .Insert [120]⟩ =
      some (⟨PieceTable.new, History.new, [(0, 0)]⟩, .error "invalid index") ∧
    (⟨PieceTable.new, History.new, [(0, 0)]⟩ : Editor Nat) =
      (Editor.new : Editor Nat).acknowledge 0 0 ∧
    (⟨PieceTable.new, History.new, [(0, 0)]⟩ : Editor Nat).pt = (Editor.new : Editor Nat).pt :=
  ⟨by decide,
    (edit_error_state (Editor.new : Editor Nat) 0 ⟨1, 0, .Insert [120]⟩
      ⟨PieceTable.new, History.new, [(0, 0)]⟩ "invalid index" (by decide)).1,
    (edit_error_state (Editor.new : Editor Nat) 0 ⟨1, 0, .Insert [120]⟩
      ⟨PieceTable.new, History.new, [(0, 0)]⟩ "invalid index" (by decide)).2⟩

theorem record_rev (h : History) (e : Edit) :
    ((h.record e).2).rev = h.first_rev + h.edits.length + 1 := by
  rw [History.record]
  dsimp only
  rw [List.length_append]
  simp [Nat.add_assoc]

theorem record_hist_rev (h : History) (e : Edit) :
    ((h.record e).1).rev = h.first_rev + h.edits.length + 1 := by
  rw [History.record]
  dsimp only
  rw [History.rev]
  dsimp only
  rw [List.length_append]
  simp [Nat.add_assoc]

/-- **C3, counterexample.**  A reachable editor state with current revision
`2` (reached by one client inserting `"a"` then `"b"`) on which a further
successful edit — submitted with the stale base revision `0` — is assigned
revision `2` again instead of `2 + 1 = 3`: the acknowledgement step lowered
`first_rev` below its previous value, so the returned revision is neither
`previous current revision + 1` nor strictly greater than all previously
assigned revisions. -/
theorem edit_rev_counterexample :
    Reachable (⟨⟨[97, 98], [(0, 2)]⟩, ⟨1, [(1, 2)]⟩, [(0, 1)]⟩ : Editor Nat) ∧
    (⟨⟨[97, 98], [(0, 2)]⟩, ⟨1, [(1, 2)]⟩, [(0, 1)]⟩ : Editor Nat).hist.rev = 2 ∧
    (Editor.edit (⟨⟨[97, 98], [(0, 2)]⟩, ⟨1, [(1, 2)]⟩, [(0, 1)]⟩ : Editor Nat) 0
        ⟨0, 0, .Insert [99]⟩).map (fun p => p.2) =
      some (.ok ⟨0, 2, .Insert [99]⟩) := by
  refine ⟨?_, by decide, by decide⟩
  have r1 : Reachable ((Editor.new : Editor Nat).connect 0).1 :=
    .connect _ 0 .new
  have r2 : Reachable (⟨⟨[97], [(0, 1)]⟩, ⟨0, [(0, 1)]⟩, [(0, 0)]⟩ : Editor Nat) :=
    .edit _ 0 ⟨0, 0, .Insert [97]⟩ _ (.ok ⟨0, 1, .Insert [97]⟩) r1 (by decide)
  exact .edit _ 0 ⟨1, 1, .Insert [98]⟩ _ (.ok ⟨1, 2, .Insert [98]⟩) r2 (by decide)

/-- **C3, amended.**  Provided the edit's base revision does not exceed the
current revision and every acknowledgement recorded after noting the
client's base (in particular the base itself) is at least
`History.first_rev` — so the acknowledgement step cannot lower `first_rev`
— a successful `Editor.edit` returns an edit whose revision is the previous
current revision plus one, and the editor's new current revision equals
that returned revision, so revisions assigned under this condition strictly
increase. -/
theorem edit_rev_amended {Cid : Type} [DecidableEq Cid] (ed : Editor Cid) (id : Cid)
    (e : Edit) (ed' : Editor Cid) (e' : Edit)
    (hack : ∀ v ∈ (insertAck ed.acks id e.rev).map Prod.snd, ed.hist.first_rev ≤ v)
    (he : e.rev ≤ ed.hist.rev)
    (h : ed.edit id e = some (ed', .ok e')) :
    e'.rev = ed.hist.rev + 1 ∧ ed'.hist.rev = e'.rev := by
  obtain ⟨e1, ht, he', hh', hak', hpt'⟩ := edit_ok_shape ed id e ed' e' h
  have hmem : e.rev ∈ (insertAck ed.acks id e.rev).map Prod.snd :=
    insertAck_self_mem ed.acks id e.rev
  obtain ⟨m₀, hmin⟩ : ∃ m₀, ((insertAck ed.acks id e.rev).map Prod.snd).min? = some m₀ := by
    cases hv : ((insertAck ed.acks id e.rev).map Prod.snd).min? with
    | some m₀ => exact ⟨m₀, rfl⟩
    | none =>
      rw [List.min?_eq_none_iff] at hv
      rw [hv] at hmem
      cases hmem
  obtain ⟨hm₀mem, hm₀le⟩ := List.min?_eq_some_iff'.mp hmin
  have h1 : ed.hist.first_rev ≤ m₀ := hack m₀ hm₀mem
  have h2 : m₀ ≤ e.rev := hm₀le e.rev hmem
  have hhist : (ed.acknowledge id e.rev).hist =
      ⟨m₀, ed.hist.edits.drop (m₀ - ed.hist.first_rev)⟩ := by
    rw [Editor.acknowledge]
    dsimp only
    rw [hmin]
    rfl
  rw [History.rev] at he
  constructor
  · rw [he', hhist, record_rev]
    dsimp only
    rw [List.length_drop, History.rev]
    omega
  · rw [hh', he', hhist, record_hist_rev, record_rev]

theorem edit_rev_amended_witness :
    (∀ v ∈ (insertAck (⟨PieceTable.new, History.new, [(0, 0)]⟩ : Editor Nat).acks 0
        (⟨0, 0, .Insert [97]⟩ : Edit).rev).map Prod.snd,
      (⟨PieceTable.new, History.new, [(0, 0)]⟩ : Editor Nat).hist.first_rev ≤ v) ∧
    (⟨0, 0, .Insert [97]⟩ : Edit).rev ≤
      (⟨PieceTable.new, History.new, [(0, 0)]⟩ : Editor Nat).hist.rev ∧
    Editor.edit (⟨PieceTable.new, History.new, [(0, 0)]⟩ : Editor Nat) 0
        ⟨0, 0, .Insert [97]⟩ =
      some (⟨⟨[97], [(0, 1)]⟩, ⟨0, [(0, 1)]⟩, [(0, 0)]⟩, .ok ⟨0, 1, .Insert [97]⟩) ∧
    (⟨0, 1, .Insert [97]⟩ : Edit).rev =
      (⟨PieceTable.new, History.new, [(0, 0)]⟩ : Editor Nat).hist.rev + 1 ∧
    (⟨⟨[97], [(0, 1)]⟩, ⟨0, [(0, 1)]⟩, [(0, 0)]⟩ : Editor Nat).hist.rev =
      (⟨0, 1, .Insert [97]⟩ : Edit).rev := by
  have h0 := edit_rev_amended (⟨PieceTable.new, History.new, [(0, 0)]⟩ : Editor Nat) 0
    ⟨0, 0, .Insert [97]⟩ ⟨⟨[97], [(0, 1)]⟩, ⟨0, [(0, 1)]⟩, [(0, 0)]⟩
    ⟨0, 1, .Insert [97]⟩ (by decide) (by decide) (by decide)
  exact ⟨by decide, by decide, by decide, h0.1, h0.2⟩

/-! ### Claim C5: `valid_index` against the rendered text -/

theorem isCharBoundary_zero (l : List Nat) : isCharBoundary l 0 = true := by
  rw [isCharBoundary, if_pos rfl]

theorem isCharBoundary_length (l : List Nat) : isCharBoundary l l.length = true := by
  rw [isCharBoundary]
  by_cases h0 : l.length = 0
  · rw [if_pos h0]
  · rw [if_neg h0, List.getElem?_eq_none (le_refl _)]
    simp

theorem isCharBoundary_of_getElem_some (l : List Nat) (i : Nat) (h0 : i ≠ 0) (b : Nat)
    (hb : l[i]? = some b) : isCharBoundary l i = !(isCont b) := by
  rw [isCharBoundary, if_neg h0, hb]

theorem isCharBoundary_append_left_length (X Y : List Nat)
    (hY : ∀ b, Y.head? = some b → isCont b = false) :
    isCharBoundary (X ++ Y) X.length = true := by
  cases Y with
  | nil =>
    rw [List.append_nil]
    exact isCharBoundary_length X
  | cons b rest =>
    have hb : (X ++ b :: rest)[X.length]? = some b := by
      rw [List.getElem?_append_right (le_refl _)]
      simp
    by_cases h0 : X.length = 0
    · rw [isCharBoundary, if_pos h0]
    · rw [isCharBoundary_of_getElem_some (X ++ b :: rest) X.length h0 b hb, hY b rfl]
      rfl

theorem seg_head_byte (buf : List Nat) (p : Nat × Nat) (x : Nat) (xs : List Nat)
    (hseg : seg buf p = x :: xs) : 0 < p.2 ∧ p.1 < buf.length ∧ buf[p.1]? = some x := by
  rcases p with ⟨o, l⟩
  simp only at hseg ⊢
  have hlen : 0 < (seg buf (o, l)).length := by
    rw [hseg]
    simp
  rw [seg, List.length_take, List.length_drop] at hlen
  simp only at hlen
  obtain ⟨h2, h1'⟩ := lt_min_iff.mp hlen
  have h1 : o < buf.length := by omega
  refine ⟨h2, h1, ?_⟩
  have h0 : (seg buf (o, l))[0]? = some x := by
    rw [hseg]
    simp
  rw [seg_getElem buf o l 0 h2, Nat.add_zero] at h0
  exact h0

theorem renderP_head_noncont (buf : List Nat) (ps : List (Nat × Nat))
    (hI2 : ∀ p ∈ ps, p.1 + p.2 ≤ buf.length)
    (hS : ∀ p ∈ ps, isCharBoundary buf p.1 = true)
    (hh : headOk buf) :
    ∀ b, (renderP buf ps).head? = some b → isCont b = false := by
  induction ps with
  | nil => intro b hb; cases hb
  | cons p rest ih =>
    intro b hb
    rw [renderP_cons] at hb
    cases hseg : seg buf p with
    | nil =>
      rw [hseg, List.nil_append] at hb
      exact ih (fun q hq => hI2 q (by simp [hq])) (fun q hq => hS q (by simp [hq])) b hb
    | cons x xs =>
      rw [hseg] at hb
      have hbx : b = x := by
        rw [List.cons_append] at hb
        exact (Option.some.inj hb).symm
      subst hbx
      obtain ⟨hp2, hp1, hbyte⟩ := seg_head_byte buf p b xs hseg
      by_cases ho : p.1 = 0
      · apply headOk_some hh
        rw [List.head?_eq_getElem?, ← ho]
        exact hbyte
      · have hbd := hS p (by simp)
        rw [isCharBoundary_of_getElem_some buf p.1 ho b hbyte] at hbd
        simpa using hbd

theorem render_boundary_at_sumTo (pt : PieceTable) (hwf : pt.WF) (k : Nat) :
    isCharBoundary pt.render (sumTo pt.pieces k) = true := by
  obtain ⟨hne, hI2, hS, hE, hh⟩ := hwf
  by_cases hk : pt.pieces.length ≤ k
  · rw [sumTo_of_le pt.pieces hk]
    have hrl : pt.render.length = sumLen pt.pieces := render_length pt hI2
    rw [← hrl]
    exact isCharBoundary_length pt.render
  · have hsplit : pt.render = renderP pt.buffer (pt.pieces.take k) ++
        renderP pt.buffer (pt.pieces.drop k) := by
      rw [render_eq_renderP]
      conv_lhs => rw [← List.take_append_drop k pt.pieces]
      rw [renderP_append]
    have hlen : (renderP pt.buffer (pt.pieces.take k)).length = sumTo pt.pieces k :=
      renderP_take_length pt.buffer pt.pieces k hI2
    rw [hsplit, ← hlen]
    exact isCharBoundary_append_left_length _ _
      (renderP_head_noncont pt.buffer (pt.pieces.drop k)
        (fun q hq => hI2 q (List.mem_of_mem_drop hq))
        (fun q hq => hS q (List.mem_of_mem_drop hq)) hh)

theorem render_getElem (pt : PieceTable) (j k : Nat)
    (hI2 : ∀ p ∈ pt.pieces, p.1 + p.2 ≤ pt.buffer.length)
    (hj : j < pt.pieces.length) (hk : k < (pt.pieces.getD j (0, 0)).2) :
    pt.render[sumTo pt.pieces j + k]? = pt.buffer[(pt.pieces.getD j (0, 0)).1 + k]? := by
  have hA : (renderP pt.buffer (pt.pieces.take j)).length = sumTo pt.pieces j :=
    renderP_take_length pt.buffer pt.pieces j hI2
  have hmem : pt.pieces.getD j (0, 0) ∈ pt.pieces := by
    rw [List.getD_eq_getElem pt.pieces (0, 0) hj]
    exact List.getElem_mem hj
  have hSg : (seg pt.buffer (pt.pieces.getD j (0, 0))).length =
      (pt.pieces.getD j (0, 0)).2 :=
    seg_length pt.buffer _ (hI2 _ hmem)
  rw [render_decomp pt j hj, (by rw [hA] : sumTo pt.pieces j + k =
    (renderP pt.buffer (pt.pieces.take j)).length + k),
    List.getElem?_append_right (by omega), (by omega :
      (renderP pt.buffer (pt.pieces.take j)).length + k -
        (renderP pt.buffer (pt.pieces.take j)).length = k),
    List.getElem?_append_left (by rw [hSg]; omega)]
  rcases hgd : pt.pieces.getD j (0, 0) with ⟨o, l⟩
  rw [hgd] at hk
  exact seg_getElem pt.buffer o l k hk

/-- **C5.**  For every `PieceTable` satisfying the piece-table invariants,
`valid_index pos` is `true` exactly when `pos` is at most the length of the
rendered text and lies on a UTF-8 character boundary of the rendered text
(position `0` and the end-of-text position included). -/
theorem valid_index_iff_render_boundary (pt : PieceTable) (pos : Nat) (hwf : pt.WF) :
    pt.valid_index pos = true ↔
      pos ≤ pt.render.length ∧ isCharBoundary pt.render pos = true := by
  have hI2 := hwf.2.1
  have hrl : pt.render.length = sumLen pt.pieces := render_length pt hI2
  cases hpi : pt.piece_index pos with
  | none =>
    rw [PieceTable.valid_index, hpi]
    rw [piece_index_eq_none_iff] at hpi
    have hlen : 0 < pt.pieces.length := List.length_pos.mpr hwf.1
    have h0 := hpi (pt.pieces.length - 1) (by omega)
    rw [(by omega : pt.pieces.length - 1 + 1 = pt.pieces.length), sumTo_length] at h0
    constructor
    · intro hc
      cases hc
    · intro hc
      omega
  | some je =>
    rcases je with ⟨j, e⟩
    obtain ⟨hj, he, hpre, hpe, hpre'⟩ := piece_index_facts pt pos j e hpi
    rcases hgd : pt.pieces.getD j (0, 0) with ⟨o, l⟩
    rw [hgd] at he
    simp only at he
    have hmem : (o, l) ∈ pt.pieces := by
      rw [← hgd, List.getD_eq_getElem pt.pieces (0, 0) hj]
      exact List.getElem_mem hj
    have hol : o + l ≤ pt.buffer.length := hI2 (o, l) hmem
    have hvx : pt.valid_index pos = isCharBoundary pt.buffer (o + (l - (e - pos))) := by
      rw [PieceTable.valid_index, hpi]
      dsimp only
      rw [hgd]
    have hsucc := sumTo_succ_getD pt.pieces j hj
    rw [hgd] at hsucc
    simp only at hsucc
    by_cases hpe' : pos = e
    · -- `pos` sits at the end of piece `j`
      rw [hvx, (by omega : l - (e - pos) = l), hwf.2.2.2.1 (o, l) hmem]
      have hbd : isCharBoundary pt.render pos = true := by
        rw [(by omega : pos = sumTo pt.pieces (j + 1))]
        exact render_boundary_at_sumTo pt hwf (j + 1)
      have hle : pos ≤ pt.render.length := by
        have := sumTo_le_sumLen pt.pieces (j + 1)
        omega
      simp [hbd, hle]
    · by_cases hppre : pos = sumTo pt.pieces j
      · -- `pos` sits at the start of piece `j`
        rw [hvx, (by omega : l - (e - pos) = 0), Nat.add_zero, hwf.2.2.1 (o, l) hmem]
        have hbd : isCharBoundary pt.render pos = true := by
          rw [hppre]
          exact render_boundary_at_sumTo pt hwf j
        have hle : pos ≤ pt.render.length := by
          have := sumTo_le_sumLen pt.pieces j
          omega
        simp [hbd, hle]
      · -- `pos` is strictly inside piece `j`
        have hkpos : 0 < pos - sumTo pt.pieces j := by omega
        have hkl : pos - sumTo pt.pieces j < l := by omega
        have hbyte := render_getElem pt j (pos - sumTo pt.pieces j) hI2 hj
          (by rw [hgd]; exact hkl)
        rw [(by omega : sumTo pt.pieces j + (pos - sumTo pt.pieces j) = pos), hgd]
          at hbyte
        have hbuflt : o + (pos - sumTo pt.pieces j) < pt.buffer.length := by omega
        obtain ⟨b, hb⟩ : ∃ b, pt.buffer[o + (pos - sumTo pt.pieces j)]? = some b :=
          ⟨_, List.getElem?_eq_getElem hbuflt⟩
        rw [hb] at hbyte
        rw [hvx, (by omega : l - (e - pos) = pos - sumTo pt.pieces j),
          isCharBoundary_of_getElem_some pt.buffer _ (by omega) b hb,
          isCharBoundary_of_getElem_some pt.render pos (by omega) b hbyte]
        have hle : pos ≤ pt.render.length := by
          have := sumTo_le_sumLen pt.pieces (j + 1)
          omega
        simp [hle]

theorem valid_index_iff_render_boundary_witness :
    (PieceTable.fromBuffer [195, 164]).WF ∧
    ((PieceTable.fromBuffer [195, 164]).valid_index 1 = true ↔
      1 ≤ (PieceTable.fromBuffer [195, 164]).render.length ∧
      isCharBoundary (PieceTable.fromBuffer [195, 164]).render 1 = true) :=
  ⟨by decide, valid_index_iff_render_boundary (PieceTable.fromBuffer [195, 164]) 1
    (by decide)⟩

/-! ### Claim C8: piece list invariants along call sequences -/

theorem sumTo_eq_sumLen_take (ps : List (Nat × Nat)) (k : Nat) :
    sumTo ps k = sumLen (ps.take k) := rfl

theorem take_set_middle (ps : List (Nat × Nat)) (j : Nat) (p : Nat × Nat) (k : Nat)
    (hj : j < ps.length) (hk : j < k) :
    (ps.set j p).take k = ps.take j ++ p :: (ps.drop (j + 1)).take (k - j - 1) := by
  rw [set_decomp ps j p hj, List.take_append_eq_append_take,
    List.take_of_length_le (by rw [List.length_take]; omega),
    (by rw [List.length_take]; omega : k - (ps.take j).length = (k - j - 1) + 1),
    List.take_succ_cons]

theorem take_middle (ps : List (Nat × Nat)) (j k : Nat)
    (hj : j < ps.length) (hk : j < k) :
    ps.take k = ps.take j ++ ps.getD j (0, 0) :: (ps.drop (j + 1)).take (k - j - 1) := by
  conv_lhs => rw [pieces_decomp ps j hj]
  rw [List.take_append_eq_append_take,
    List.take_of_length_le (by rw [List.length_take]; omega),
    (by rw [List.length_take]; omega : k - (ps.take j).length = (k - j - 1) + 1),
    List.take_succ_cons]

theorem sumTo_set_le (ps : List (Nat × Nat)) (j : Nat) (p : Nat × Nat) (k : Nat)
    (hj : j < ps.length) (hk : k ≤ j) :
    sumTo (ps.set j p) k = sumTo ps k := by
  rw [sumTo_eq_sumLen_take, sumTo_eq_sumLen_take, set_decomp ps j p hj,
    List.take_append_of_le_length (by rw [List.length_take]; omega),
    List.take_take, Nat.min_eq_left hk]

theorem sumTo_set_ge (ps : List (Nat × Nat)) (j : Nat) (p : Nat × Nat) (k : Nat)
    (hj : j < ps.length) (hk : j < k) :
    sumTo (ps.set j p) k + (ps.getD j (0, 0)).2 = sumTo ps k + p.2 := by
  rw [sumTo_eq_sumLen_take, sumTo_eq_sumLen_take, take_set_middle ps j p k hj hk,
    take_middle ps j k hj hk, sumLen_append, sumLen_append, sumLen_cons, sumLen_cons]
  omega

theorem sumTo_eraseIdx_le (ps : List (Nat × Nat)) (j k : Nat)
    (hj : j < ps.length) (hk : k ≤ j) :
    sumTo (ps.eraseIdx j) k = sumTo ps k := by
  rw [sumTo_eq_sumLen_take, sumTo_eq_sumLen_take, List.eraseIdx_eq_take_drop_succ,
    List.take_append_of_le_length (by rw [List.length_take]; omega),
    List.take_take, Nat.min_eq_left hk]

theorem sumTo_eraseIdx_ge (ps : List (Nat × Nat)) (j k : Nat)
    (hj : j < ps.length) (hk : j ≤ k) :
    sumTo (ps.eraseIdx j) k + (ps.getD j (0, 0)).2 = sumTo ps (k + 1) := by
  rw [sumTo_eq_sumLen_take, sumTo_eq_sumLen_take, List.eraseIdx_eq_take_drop_succ,
    List.take_append_eq_append_take,
    List.take_of_length_le (by rw [List.length_take]; omega),
    take_middle ps j (k + 1) hj (by omega), sumLen_append, sumLen_append, sumLen_cons,
    (by rw [List.length_take]; omega : k - (ps.take j).length = k - j),
    (by omega : k + 1 - j - 1 = k - j)]
  omega

theorem getD_eraseIdx_ge (ps : List (Nat × Nat)) (j m : Nat)
    (hm : j < m) (hmlen : m < ps.length) :
    (ps.eraseIdx j).getD (m - 1) (0, 0) = ps.getD m (0, 0) := by
  rw [List.getD_eq_getElem?_getD, List.getD_eq_getElem?_getD,
    List.eraseIdx_eq_take_drop_succ,
    List.getElem?_append_right (by rw [List.length_take]; omega),
    List.getElem?_drop,
    (by rw [List.length_take]; omega :
      j + 1 + (m - 1 - (ps.take j).length) = m)]

theorem getD_set_ne (ps : List (Nat × Nat)) (j m : Nat) (p : Nat × Nat)
    (hm : j ≠ m) :
    (ps.set j p).getD m (0, 0) = ps.getD m (0, 0) := by
  rw [List.getD_eq_getElem?_getD, List.getD_eq_getElem?_getD,
    List.getElem?_set_ne hm]

theorem isCharBoundary_buffer_append (buf s : List Nat) (p : Nat)
    (hp : p ≤ buf.length) (hb : isCharBoundary buf p = true) (hs : headOk s) :
    isCharBoundary (buf ++ s) p = true := by
  by_cases h0 : p = 0
  · rw [h0]
    exact isCharBoundary_zero _
  · by_cases hlt : p < buf.length
    · obtain ⟨b, hbyte⟩ : ∃ b, buf[p]? = some b := ⟨_, List.getElem?_eq_getElem hlt⟩
      rw [isCharBoundary_of_getElem_some buf p h0 b hbyte] at hb
      rw [isCharBoundary_of_getElem_some (buf ++ s) p h0 b
        (by rw [List.getElem?_append_left hlt]; exact hbyte)]
      exact hb
    · have hpl : p = buf.length := by omega
      subst hpl
      cases hsc : s with
      | nil =>
        rw [List.append_nil]
        exact hb
      | cons c rest =>
        rw [isCharBoundary_of_getElem_some (buf ++ c :: rest) buf.length h0 c
          (by rw [List.getElem?_append_right (le_refl _)]; simp)]
        have := headOk_some hs (by rw [hsc]; rfl)
        simp [this]

theorem empty_check_startBound (pt : PieceTable) (h : pt.StartBound) :
    pt.empty_check.StartBound := by
  rw [PieceTable.empty_check]
  by_cases he : pt.pieces = []
  · rw [if_pos he]
    intro p hp
    simp only [List.mem_singleton] at hp
    rw [hp]
    exact isCharBoundary_zero _
  · rw [if_neg he]
    exact h

theorem valid_index_zero (pt : PieceTable) (hne : pt.pieces ≠ [])
    (hS : pt.StartBound) : pt.valid_index 0 = true := by
  cases hps : pt.pieces with
  | nil => exact absurd hps hne
  | cons p rest =>
    have hpi : pt.piece_index 0 = some (0, p.2) := by
      rw [PieceTable.piece_index, hps, PieceTable.piAux, if_pos (by omega)]
      simp
    rw [PieceTable.valid_index, hpi]
    dsimp only
    rw [hps]
    simp only [List.getD_cons_zero]
    rw [(by omega : p.2 - (p.2 - 0) = 0), Nat.add_zero]
    exact hS p (by rw [hps]; simp)

theorem insert_startBound (pt : PieceTable) (pos : Nat) (s : List Nat)
    (pt' : PieceTable) (hInv : pt.Inv) (hS : pt.StartBound)
    (hv : pt.valid_index pos = true) (hs : headOk s)
    (hres : pt.insert pos s = some pt') : pt'.StartBound := by
  obtain ⟨hne, hI2⟩ := hInv
  cases hpi : pt.piece_index pos with
  | none =>
    rw [PieceTable.valid_index, hpi] at hv
    cases hv
  | some je =>
    rcases je with ⟨j, e⟩
    obtain ⟨hj, he, hpre, hpe, hpre'⟩ := piece_index_facts pt pos j e hpi
    rcases hgd : pt.pieces.getD j (0, 0) with ⟨o, l⟩
    rw [hgd] at he
    simp only at he
    have hmem : (o, l) ∈ pt.pieces := by
      rw [← hgd, List.getD_eq_getElem pt.pieces (0, 0) hj]
      exact List.getElem_mem hj
    have hol : o + l ≤ pt.buffer.length := hI2 (o, l) hmem
    have hbv : isCharBoundary pt.buffer (o + (l - (e - pos))) = true := by
      rw [PieceTable.valid_index, hpi] at hv
      dsimp only at hv
      rw [hgd] at hv
      exact hv
    have hold : ∀ p ∈ pt.pieces, isCharBoundary (pt.buffer ++ s) p.1 = true := by
      intro p hp
      exact isCharBoundary_buffer_append pt.buffer s p.1
        (le_trans (by omega) (hI2 p hp)) (hS p hp) hs
    have hnewB : isCharBoundary (pt.buffer ++ s) pt.buffer.length = true :=
      isCharBoundary_buffer_append pt.buffer s pt.buffer.length (le_refl _)
        (isCharBoundary_length pt.buffer) hs
    rw [PieceTable.insert, hpi] at hres
    dsimp only at hres
    rw [hgd] at hres
    dsimp only at hres
    by_cases h1 : pos = e
    · rw [if_pos h1] at hres
      by_cases h2 : o + l = pt.buffer.length
      · rw [if_pos h2] at hres
        rw [← Option.some.inj hres]
        intro p hp
        rcases List.mem_or_eq_of_mem_set hp with hp' | rfl
        · exact hold p hp'
        · exact hold (o, l) hmem
      · rw [if_neg h2] at hres
        rw [← Option.some.inj hres]
        intro p hp
        rcases (List.mem_insertIdx (by omega)).mp hp with rfl | hp'
        · exact hnewB
        · exact hold p hp'
    · rw [if_neg h1] at hres
      rw [← Option.some.inj hres]
      intro p hp
      rcases (List.mem_insertIdx (by
          rw [List.length_insertIdx (j + 1) _ (by rw [List.length_set]; omega),
            List.length_set]
          omega)).mp hp with rfl | hp'
      · show isCharBoundary (pt.buffer ++ s) (o + (l - (e - pos))) = true
        exact isCharBoundary_buffer_append pt.buffer s _ (by omega) hbv hs
      · rcases (List.mem_insertIdx (by rw [List.length_set]; omega)).mp hp'
          with rfl | hp''
        · exact hnewB
        · rcases List.mem_or_eq_of_mem_set hp'' with hp''' | rfl
          · exact hold p hp'''
          · exact hold (o, l) hmem

theorem deleteAux_startBound (fuel : Nat) :
    ∀ (pt : PieceTable) (pos len : Nat) (pt' : PieceTable), pt.Inv → pt.StartBound →
      0 < len → pos + len ≤ pt.totalLen →
      pt.valid_index (pos + len) = true →
      PieceTable.deleteAux fuel pt pos len = some pt' → pt'.StartBound := by
  induction fuel with
  | zero =>
    intro pt pos len pt' _ _ _ _ _ hres
    cases hres
  | succ fuel ih =>
    intro pt pos len pt' hInv hS hlen hrange hv2 hres
    obtain ⟨hne, hI2⟩ := hInv
    rw [PieceTable.deleteAux] at hres
    cases hdel : pt.piece_index_del pos with
    | none =>
      rw [hdel] at hres
      cases hres
    | some je =>
      rcases je with ⟨j, e⟩
      rw [hdel] at hres
      obtain ⟨hj, hf, hpose, hm⟩ := (piece_index_del_eq_some_iff pt pos j e).mp hdel
      obtain ⟨_, _, hpre, _⟩ := piece_index_del_facts pt pos j e hdel
      rcases hgd : pt.pieces.getD j (0, 0) with ⟨o, l⟩
      have hsucc := sumTo_succ_getD pt.pieces j hj
      rw [hgd] at hsucc
      simp only at hsucc
      have he : e = sumTo pt.pieces j + l := by omega
      have hmem : (o, l) ∈ pt.pieces := by
        rw [← hgd, List.getD_eq_getElem pt.pieces (0, 0) hj]
        exact List.getElem_mem hj
      have hol : o + l ≤ pt.buffer.length := hI2 (o, l) hmem
      have hSsub : ∀ (qs : List (Nat × Nat)), (∀ p ∈ qs, p ∈ pt.pieces) →
          PieceTable.StartBound ⟨pt.buffer, qs⟩ := by
        intro qs hqs p hp
        exact hS p (hqs p hp)
      rw [PieceTable.totalLen] at hrange
      dsimp only at hres
      rw [hgd] at hres
      dsimp only at hres
      by_cases hstart : pos = e - l
      · have hppre : pos = sumTo pt.pieces j := by omega
        rw [if_pos hstart] at hres
        by_cases heop : pos + len = e
        · -- delete exactly piece `j`: no new piece starts
          rw [if_pos heop] at hres
          rw [← Option.some.inj hres]
          apply empty_check_startBound
          apply hSsub
          intro p hp
          rw [List.eraseIdx_eq_take_drop_succ] at hp
          rcases List.mem_append.mp hp with hp' | hp'
          · exact List.mem_of_mem_take hp'
          · exact List.mem_of_mem_drop hp'
        · rw [if_neg heop] at hres
          by_cases hov : e < pos + len
          · -- whole piece `j` removed, recurse into the later pieces
            rw [if_pos hov] at hres
            have hl0 : 0 < l := by omega
            have hlenl : l < len := by omega
            have hsums1 : sumLen (pt.pieces.eraseIdx j) + l = sumLen pt.pieces := by
              have h0 := sumTo_eraseIdx_ge pt.pieces j (pt.pieces.length - 1) hj
                (by omega)
              rw [hgd] at h0
              rw [(by rw [List.length_eraseIdx, if_pos hj] :
                sumTo (pt.pieces.eraseIdx j) (pt.pieces.length - 1) =
                  sumTo (pt.pieces.eraseIdx j) (pt.pieces.eraseIdx j).length),
                sumTo_length] at h0
              rw [(by omega : pt.pieces.length - 1 + 1 = pt.pieces.length),
                sumTo_length] at h0
              exact h0
            -- transfer the end-of-range validity to the shrunk table
            cases hpiq : pt.piece_index (pos + len) with
            | none =>
              rw [PieceTable.valid_index, hpiq] at hv2
              cases hv2
            | some mf =>
              rcases mf with ⟨m, f⟩
              obtain ⟨hmlen, hff, hqf, hmall⟩ :=
                (piece_index_eq_some_iff pt (pos + len) m f).mp hpiq
              have hjm : j + 1 ≤ m := by
                by_contra hc
                have h0 := sumTo_mono pt.pieces (by omega : m + 1 ≤ j + 1)
                omega
              rcases hgdm : pt.pieces.getD m (0, 0) with ⟨om, lm⟩
              have hbm : isCharBoundary pt.buffer (om + (lm - (f - (pos + len)))) =
                  true := by
                rw [PieceTable.valid_index, hpiq] at hv2
                dsimp only at hv2
                rw [hgdm] at hv2
                exact hv2
              have hpiq₁ : PieceTable.piece_index ⟨pt.buffer, pt.pieces.eraseIdx j⟩
                  (pos + (len - l)) = some (m - 1, f - l) := by
                apply (piece_index_eq_some_iff _ _ _ _).mpr
                have hlen₁ : (pt.pieces.eraseIdx j).length = pt.pieces.length - 1 := by
                  rw [List.length_eraseIdx, if_pos hj]
                have hge := sumTo_eraseIdx_ge pt.pieces j m hj (by omega)
                rw [hgd] at hge
                refine ⟨by simp only [hlen₁]; omega, ?_, by omega, ?_⟩
                · rw [(by omega : m - 1 + 1 = m)]
                  simp only
                  omega
                · intro m' hm'
                  simp only
                  by_cases hc : m' + 1 ≤ j
                  · rw [sumTo_eraseIdx_le pt.pieces j (m' + 1) hj hc]
                    have h0 : sumTo pt.pieces (m' + 1) ≤ pos := by
                      rcases Nat.lt_or_ge m' j with h' | h'
                      · exact hm m' h'
                      · have : m' = j := by omega
                        omega
                    omega
                  · have h3' := sumTo_eraseIdx_ge pt.pieces j (m' + 1) hj (by omega)
                    rw [hgd] at h3'
                    have h4' := hmall (m' + 1) (by omega)
                    omega
              cases hdel₂ : PieceTable.deleteAux fuel ⟨pt.buffer, pt.pieces.eraseIdx j⟩
                  pos (len - l) with
              | none =>
                rw [hdel₂] at hres
                cases hres
              | some pt₂ =>
                rw [hdel₂] at hres
                rw [← Option.some.inj hres]
                apply empty_check_startBound
                apply ih _ pos (len - l) pt₂ _ _ (by omega) _ _ hdel₂
                · constructor
                  · show pt.pieces.eraseIdx j ≠ []
                    intro hc
                    have h0 : sumLen (pt.pieces.eraseIdx j) = 0 := by
                      rw [hc]
                      rfl
                    omega
                  · show ∀ p ∈ pt.pieces.eraseIdx j, p.1 + p.2 ≤ pt.buffer.length
                    intro p hp
                    rw [List.eraseIdx_eq_take_drop_succ] at hp
                    rcases List.mem_append.mp hp with hp' | hp'
                    · exact hI2 p (List.mem_of_mem_take hp')
                    · exact hI2 p (List.mem_of_mem_drop hp')
                · apply hSsub
                  intro p hp
                  rw [List.eraseIdx_eq_take_drop_succ] at hp
                  rcases List.mem_append.mp hp with hp' | hp'
                  · exact List.mem_of_mem_take hp'
                  · exact List.mem_of_mem_drop hp'
                · show pos + (len - l) ≤ sumLen (pt.pieces.eraseIdx j)
                  omega
                · rw [PieceTable.valid_index, hpiq₁]
                  dsimp only
                  rw [getD_eraseIdx_ge pt.pieces j m (by omega) hmlen, hgdm]
                  rw [(by omega : lm - (f - l - (pos + (len - l))) =
                    lm - (f - (pos + len)))]
                  exact hbm
          · -- delete an initial part of piece `j`: one new start at `o + len`
            rw [if_neg hov] at hres
            have hlt : len < l := by omega
            have hpiq3 : pt.piece_index (pos + len) = some (j, e) := by
              apply (piece_index_eq_some_iff _ _ _ _).mpr
              refine ⟨hj, hf, by omega, ?_⟩
              intro m' hm'
              have := hm m' hm'
              omega
            have hb3 : isCharBoundary pt.buffer (o + len) = true := by
              rw [PieceTable.valid_index, hpiq3] at hv2
              dsimp only at hv2
              rw [hgd] at hv2
              rw [(by omega : o + (l - (e - (pos + len))) = o + len)] at hv2
              exact hv2
            rw [← Option.some.inj hres]
            apply empty_check_startBound
            intro p hp
            rcases List.mem_or_eq_of_mem_set hp with hp' | rfl
            · exact hS p hp'
            · exact hb3
      · rw [if_neg hstart] at hres
        have hppre : sumTo pt.pieces j < pos := by omega
        by_cases heop : pos + len = e
        · -- delete a final part of piece `j`: starts unchanged
          rw [if_pos heop] at hres
          rw [← Option.some.inj hres]
          intro p hp
          rcases List.mem_or_eq_of_mem_set hp with hp' | rfl
          · exact hS p hp'
          · exact hS (o, l) hmem
        · rw [if_neg heop] at hres
          by_cases hov : e < pos + len
          · -- shrink piece `j`, recurse into the later pieces
            rw [if_pos hov] at hres
            have hovpos : 0 < e - pos := by omega
            have hovlen : e - pos < len := by omega
            have hovl : e - pos ≤ l := by omega
            cases hpiq : pt.piece_index (pos + len) with
            | none =>
              rw [PieceTable.valid_index, hpiq] at hv2
              cases hv2
            | some mf =>
              rcases mf with ⟨m, f⟩
              obtain ⟨hmlen, hff, hqf, hmall⟩ :=
                (piece_index_eq_some_iff pt (pos + len) m f).mp hpiq
              have hjm : j + 1 ≤ m := by
                by_contra hc
                have h0 := sumTo_mono pt.pieces (by omega : m + 1 ≤ j + 1)
                omega
              rcases hgdm : pt.pieces.getD m (0, 0) with ⟨om, lm⟩
              have hbm : isCharBoundary pt.buffer (om + (lm - (f - (pos + len)))) =
                  true := by
                rw [PieceTable.valid_index, hpiq] at hv2
                dsimp only at hv2
                rw [hgdm] at hv2
                exact hv2
              have hsums1 : sumLen (pt.pieces.set j (o, l - (e - pos))) + (e - pos) =
                  sumLen pt.pieces := by
                have h0 := sumTo_set_ge pt.pieces j (o, l - (e - pos))
                  pt.pieces.length hj (by omega)
                rw [hgd] at h0
                rw [(by rw [List.length_set] :
                  sumTo (pt.pieces.set j (o, l - (e - pos))) pt.pieces.length =
                    sumTo (pt.pieces.set j (o, l - (e - pos)))
                      (pt.pieces.set j (o, l - (e - pos))).length),
                  sumTo_length, sumTo_length] at h0
                simp only at h0
                omega
              have hpiq₁ : PieceTable.piece_index
                  ⟨pt.buffer, pt.pieces.set j (o, l - (e - pos))⟩
                  (pos + (len - (e - pos))) = some (m, f - (e - pos)) := by
                apply (piece_index_eq_some_iff _ _ _ _).mpr
                have hge := sumTo_set_ge pt.pieces j (o, l - (e - pos)) (m + 1) hj
                  (by omega)
                rw [hgd] at hge
                simp only at hge
                refine ⟨by rw [List.length_set]; omega, by simp only; omega,
                  by omega, ?_⟩
                intro m' hm'
                simp only
                by_cases hc : m' + 1 ≤ j
                · rw [sumTo_set_le pt.pieces j _ (m' + 1) hj hc]
                  have h0 : sumTo pt.pieces (m' + 1) ≤ pos := by
                    rcases Nat.lt_or_ge m' j with h' | h'
                    · exact hm m' h'
                    · have : m' = j := by omega
                      omega
                  omega
                · have h3' := sumTo_set_ge pt.pieces j (o, l - (e - pos)) (m' + 1)
                    hj (by omega)
                  rw [hgd] at h3'
                  simp only at h3'
                  have h4' := hmall m' hm'
                  omega
              cases hdel₂ : PieceTable.deleteAux fuel
                  ⟨pt.buffer, pt.pieces.set j (o, l - (e - pos))⟩
                  pos (len - (e - pos)) with
              | none =>
                rw [hdel₂] at hres
                cases hres
              | some pt₂ =>
                rw [hdel₂] at hres
                rw [← Option.some.inj hres]
                apply empty_check_startBound
                apply ih _ pos (len - (e - pos)) pt₂ _ _ (by omega) _ _ hdel₂
                · constructor
                  · show pt.pieces.set j (o, l - (e - pos)) ≠ []
                    apply List.length_pos.mp
                    rw [List.length_set]
                    exact List.length_pos.mpr hne
                  · show ∀ p ∈ pt.pieces.set j (o, l - (e - pos)),
                      p.1 + p.2 ≤ pt.buffer.length
                    intro p hp
                    rcases List.mem_or_eq_of_mem_set hp with hp' | rfl
                    · exact hI2 p hp'
                    · simp only
                      omega
                · intro p hp
                  rcases List.mem_or_eq_of_mem_set hp with hp' | rfl
                  · exact hS p hp'
                  · exact hS (o, l) hmem
                · show pos + (len - (e - pos)) ≤
                    sumLen (pt.pieces.set j (o, l - (e - pos)))
                  omega
                · rw [PieceTable.valid_index, hpiq₁]
                  dsimp only
                  rw [getD_set_ne pt.pieces j m _ (by omega), hgdm]
                  rw [(by omega : lm - (f - (e - pos) - (pos + (len - (e - pos)))) =
                    lm - (f - (pos + len)))]
                  exact hbm
          · -- split piece `j`: one new start at `o + (l - (e - pos)) + len`
            rw [if_neg hov] at hres
            have hlt : pos + len < e := by omega
            have hpiq6 : pt.piece_index (pos + len) = some (j, e) := by
              apply (piece_index_eq_some_iff _ _ _ _).mpr
              refine ⟨hj, hf, by omega, ?_⟩
              intro m' hm'
              have := hm m' hm'
              omega
            have hb6 : isCharBoundary pt.buffer (o + (l - (e - pos)) + len) = true := by
              rw [PieceTable.valid_index, hpiq6] at hv2
              dsimp only at hv2
              rw [hgd] at hv2
              rw [(by omega : o + (l - (e - (pos + len))) =
                o + (l - (e - pos)) + len)] at hv2
              exact hv2
            rw [← Option.some.inj hres]
            intro p hp
            rcases (List.mem_insertIdx (by rw [List.length_set]; omega)).mp hp
              with rfl | hp'
            · exact hb6
            · rcases List.mem_or_eq_of_mem_set hp' with hp'' | rfl
              · exact hS p hp''
              · exact hS (o, l) hmem

theorem delete_startBound (pt : PieceTable) (pos len : Nat) (pt' : PieceTable)
    (hInv : pt.Inv) (hS : pt.StartBound) (hlen : 0 < len)
    (hrange : pos + len ≤ pt.totalLen) (hv2 : pt.valid_index (pos + len) = true)
    (hres : pt.delete pos len = some pt') : pt'.StartBound :=
  deleteAux_startBound (len + 1) pt pos len pt' hInv hS hlen hrange hv2 hres

/-- **C8.**  Starting from a fresh `PieceTable`, after any sequence of
`insert`/`delete` calls each satisfying its preconditions (`valid_index` on
the touched positions, positive deletion length, and — automatic for Rust
string slices — UTF-8 well-formed inserted content), the piece list is never
empty and consequently `valid_index 0` is always `true`. -/
theorem pieces_never_empty_along_steps (pt : PieceTable)
    (h : Steps PieceTable.new pt) :
    pt.pieces ≠ [] ∧ pt.valid_index 0 = true := by
  suffices hG : pt.Inv ∧ pt.StartBound from
    ⟨hG.1.1, valid_index_zero pt hG.1.1 hG.2⟩
  induction h with
  | refl =>
    refine ⟨⟨by simp [PieceTable.new], ?_⟩, ?_⟩
    · intro p hp
      simp only [PieceTable.new, List.mem_singleton] at hp
      rw [hp]
      simp
    · intro p hp
      simp only [PieceTable.new, List.mem_singleton] at hp
      rw [hp]
      exact isCharBoundary_zero _
  | step pt₂ pt₃ op hsteps hok happ ih =>
    obtain ⟨hInv, hS⟩ := ih
    cases op with
    | ins pos s =>
      obtain ⟨hv, hs⟩ := hok
      have happ' : pt₂.insert pos s = some pt₃ := happ
      obtain ⟨pt'', hins, _, hInv'', _⟩ := insert_spec pt₂ pos s hInv
        (le_totalLen_of_valid pt₂ pos hv)
      have heq : pt'' = pt₃ := Option.some.inj (hins.symm.trans happ')
      exact ⟨heq ▸ hInv'', insert_startBound pt₂ pos s pt₃ hInv hS hv hs happ'⟩
    | del pos len =>
      obtain ⟨hl, hv1, hv2⟩ := hok
      have happ' : pt₂.delete pos len = some pt₃ := happ
      have hrange := le_totalLen_of_valid pt₂ (pos + len) hv2
      obtain ⟨pt'', hdel, _, hInv'', _⟩ := delete_spec pt₂ pos len hInv hl hrange
      have heq : pt'' = pt₃ := Option.some.inj (hdel.symm.trans happ')
      exact ⟨heq ▸ hInv'',
        delete_startBound pt₂ pos len pt₃ hInv hS hl hrange hv2 happ'⟩

theorem pieces_never_empty_witness :
    Steps PieceTable.new ⟨[97], [(0, 1)]⟩ ∧
    ((⟨[97], [(0, 1)]⟩ : PieceTable).pieces ≠ [] ∧
      (⟨[97], [(0, 1)]⟩ : PieceTable).valid_index 0 = true) := by
  have hsteps : Steps PieceTable.new ⟨[97], [(0, 1)]⟩ :=
    .step _ _ _ (.ins 0 [97]) (.refl _) ⟨by decide, by decide⟩ (by decide)
  exact ⟨hsteps, pieces_never_empty_along_steps _ hsteps⟩

/-! ### Claim C10: empty inserts consume revisions -/

theorem minAck_le {Cid : Type} [DecidableEq Cid] (m : List (Cid × Nat)) (id : Cid)
    (rev : Nat) :
    ∀ v ∈ (insertAck m id rev).map Prod.snd,
      (((insertAck m id rev).map Prod.snd).min?).getD 0 ≤ v := by
  intro v hv
  cases hmin : ((insertAck m id rev).map Prod.snd).min? with
  | none =>
    rw [List.min?_eq_none_iff] at hmin
    rw [hmin] at hv
    cases hv
  | some m₀ =>
    obtain ⟨_, hle⟩ := List.min?_eq_some_iff'.mp hmin
    exact hle v hv

theorem new_pt_inv : PieceTable.Inv PieceTable.new := by
  constructor
  · simp [PieceTable.new]
  · intro p hp
    simp only [PieceTable.new, List.mem_singleton] at hp
    rw [hp]
    simp

theorem reachable_invariants {Cid : Type} [DecidableEq Cid] (ed : Editor Cid)
    (h : Reachable ed) :
    ed.pt.Inv ∧ ∀ v ∈ ed.acks.map Prod.snd, ed.hist.first_rev ≤ v := by
  induction h with
  | new =>
    refine ⟨new_pt_inv, ?_⟩
    intro v hv
    cases hv
  | connect ed id hr ih =>
    refine ⟨ih.1, ?_⟩
    intro v hv
    rcases insertAck_values_subset ed.acks id ed.hist.rev v hv with hv' | rfl
    · exact ih.2 v hv'
    · show ed.hist.first_rev ≤ ed.hist.rev
      rw [History.rev]
      omega
  | disconnect ed id hr ih =>
    have hd : ed.disconnect id =
        (match ((ed.acks.filter (fun p => p.1 ≠ id)).map Prod.snd).min? with
          | some m => ⟨ed.pt, ed.hist.acknowledge m,
              ed.acks.filter (fun p => p.1 ≠ id)⟩
          | none => ⟨ed.pt, ed.hist.acknowledge ed.hist.rev,
              ed.acks.filter (fun p => p.1 ≠ id)⟩) := by
      rw [Editor.disconnect]
    cases hmin : ((ed.acks.filter (fun p => p.1 ≠ id)).map Prod.snd).min? with
    | some m =>
      rw [hmin] at hd
      dsimp only at hd
      rw [hd]
      refine ⟨ih.1, ?_⟩
      intro v hv
      obtain ⟨_, hle⟩ := List.min?_eq_some_iff'.mp hmin
      exact hle v hv
    | none =>
      rw [hmin] at hd
      dsimp only at hd
      rw [hd]
      refine ⟨ih.1, ?_⟩
      intro v hv
      rw [List.min?_eq_none_iff] at hmin
      rw [hmin] at hv
      cases hv
  | edit ed id e ed' r hr hedit ih =>
    cases r with
    | error msg =>
      rw [(edit_error_state ed id e ed' msg hedit).1]
      refine ⟨ih.1, ?_⟩
      intro v hv
      exact minAck_le ed.acks id e.rev v hv
    | ok e' =>
      obtain ⟨e1, ht, he', hh', hak', hguard⟩ := edit_ok_shape ed id e ed' e' hedit
      constructor
      · rcases hguard with ⟨c, ha, hv', hins⟩ | ⟨len, ha, hl, hv1, hv2, hdel⟩
        · obtain ⟨pt'', hins', _, hInv'', _⟩ := insert_spec ed.pt e1.pos c ih.1
            (le_totalLen_of_valid ed.pt e1.pos hv')
          have heq : pt'' = ed'.pt := Option.some.inj (hins'.symm.trans hins)
          exact heq ▸ hInv''
        · obtain ⟨pt'', hdel', _, hInv'', _⟩ := delete_spec ed.pt e1.pos len ih.1 hl
            (le_totalLen_of_valid ed.pt (e1.pos + len) hv2)
          have heq : pt'' = ed'.pt := Option.some.inj (hdel'.symm.trans hdel)
          exact heq ▸ hInv''
      · intro v hv
        rw [hak'] at hv
        rw [hh']
        exact minAck_le ed.acks id e.rev v hv

/-- **C10.**  On any reachable editor state, an `Insert ""` at a valid
position `pos` submitted at the current revision succeeds, leaves the
rendered text unchanged, yet still increments the current revision by one
and appends the pair `(pos, pos)` to the history entries: empty inserts
consume revisions without changing the document. -/
theorem empty_insert_consumes_revision {Cid : Type} [DecidableEq Cid]
    (ed : Editor Cid) (id : Cid) (pos : Nat) (hreach : Reachable ed)
    (hv : ed.pt.valid_index pos = true) :
    ∃ ed' e', ed.edit id ⟨pos, ed.hist.rev, .Insert []⟩ = some (ed', .ok e') ∧
      ed'.pt.render = ed.pt.render ∧
      e'.rev = ed.hist.rev + 1 ∧
      ed'.hist.rev = ed.hist.rev + 1 ∧
      ∃ pre, ed'.hist.edits = pre ++ [(pos, pos)] := by
  obtain ⟨hInv, hackinv⟩ := reachable_invariants ed hreach
  have hmem : ed.hist.rev ∈ (insertAck ed.acks id ed.hist.rev).map Prod.snd :=
    insertAck_self_mem ed.acks id ed.hist.rev
  obtain ⟨m₀, hmin⟩ :
      ∃ m₀, ((insertAck ed.acks id ed.hist.rev).map Prod.snd).min? = some m₀ := by
    cases hm : ((insertAck ed.acks id ed.hist.rev).map Prod.snd).min? with
    | some m₀ => exact ⟨m₀, rfl⟩
    | none =>
      rw [List.min?_eq_none_iff] at hm
      rw [hm] at hmem
      cases hmem
  obtain ⟨hm₀mem, hm₀le⟩ := List.min?_eq_some_iff'.mp hmin
  have h1 : ed.hist.first_rev ≤ m₀ := by
    rcases insertAck_values_subset ed.acks id ed.hist.rev m₀ hm₀mem with hv' | rfl
    · exact hackinv m₀ hv'
    · rw [History.rev]
      omega
  have h2 : m₀ ≤ ed.hist.rev := hm₀le _ hmem
  have hre : ed.hist.rev = ed.hist.first_rev + ed.hist.edits.length := rfl
  have hhist : (ed.acknowledge id ed.hist.rev).hist =
      ⟨m₀, ed.hist.edits.drop (m₀ - ed.hist.first_rev)⟩ := by
    rw [Editor.acknowledge]
    dsimp only
    rw [hmin]
    rfl
  have hrev1 : (ed.acknowledge id ed.hist.rev).hist.rev = ed.hist.rev := by
    rw [hhist, History.rev]
    dsimp only
    rw [List.length_drop]
    rw [History.rev]
    omega
  have htr : (ed.acknowledge id ed.hist.rev).hist.transform
      ⟨pos, ed.hist.rev, .Insert []⟩ = .ok ⟨pos, ed.hist.rev, .Insert []⟩ :=
    transform_at_current_rev _ _ (by rw [hrev1])
  obtain ⟨pt', hins, hbuf', hInv', hrender'⟩ := insert_spec ed.pt pos [] hInv
    (le_totalLen_of_valid ed.pt pos hv)
  have hins2 : (ed.acknowledge id ed.hist.rev).pt.insert pos [] = some pt' := hins
  have hrender : pt'.render = ed.pt.render := by
    rw [hrender', List.append_nil, List.take_append_drop]
  have hvack : (ed.acknowledge id ed.hist.rev).pt.valid_index pos = true := hv
  refine ⟨⟨pt', ((ed.acknowledge id ed.hist.rev).hist.record
      ⟨pos, ed.hist.rev, .Insert []⟩).1, (ed.acknowledge id ed.hist.rev).acks⟩,
    ((ed.acknowledge id ed.hist.rev).hist.record ⟨pos, ed.hist.rev, .Insert []⟩).2,
    ?_, ?_, ?_, ?_, ?_⟩
  · unfold Editor.edit
    dsimp only
    rw [htr]
    dsimp only
    rw [if_pos hvack, hins2]
  · exact hrender
  · rw [record_rev, hhist]
    dsimp only
    rw [List.length_drop]
    rw [History.rev]
    omega
  · show ((ed.acknowledge id ed.hist.rev).hist.record
      ⟨pos, ed.hist.rev, .Insert []⟩).1.rev = ed.hist.rev + 1
    rw [record_hist_rev, hhist]
    dsimp only
    rw [List.length_drop]
    rw [History.rev]
    omega
  · refine ⟨(ed.acknowledge id ed.hist.rev).hist.edits, ?_⟩
    show ((ed.acknowledge id ed.hist.rev).hist.record
      ⟨pos, ed.hist.rev, .Insert []⟩).1.edits = _
    rw [History.record]
    simp

theorem empty_insert_consumes_revision_witness :
    Reachable ((Editor.new : Editor Nat).connect 0).1 ∧
    ((Editor.new : Editor Nat).connect 0).1.pt.valid_index 0 = true ∧
    ∃ ed' e', ((Editor.new : Editor Nat).connect 0).1.edit 0
        ⟨0, ((Editor.new : Editor Nat).connect 0).1.hist.rev, .Insert []⟩ =
        some (ed', .ok e') ∧
      ed'.pt.render = ((Editor.new : Editor Nat).connect 0).1.pt.render ∧
      e'.rev = ((Editor.new : Editor Nat).connect 0).1.hist.rev + 1 ∧
      ed'.hist.rev = ((Editor.new : Editor Nat).connect 0).1.hist.rev + 1 ∧
      ∃ pre, ed'.hist.edits = pre ++ [(0, 0)] :=
  ⟨.connect _ 0 .new, by decide,
    empty_insert_consumes_revision ((Editor.new : Editor Nat).connect 0).1 0 0
      (.connect _ 0 .new) (by decide)⟩

end Avian
